import Mathlib

/-!
Shallow embedding of the buffer-synchronization core of
`typescript-language-server` (files `src/utils/resourceMap.ts` and
`src/tsServer/bufferSyncSupport.ts`), with theorems checking the
natural-language specification against the code.

URIs are modelled by their string form.  JavaScript `Map` objects are
modelled by insertion-ordered association lists; JavaScript `Set` objects by
insertion-ordered duplicate-free lists.  `string | undefined` is modelled by
`Option String`, with JavaScript truthiness (`undefined` and `""` are falsy)
made explicit at each use site, exactly where the source tests `!file`.
-/

namespace TSLS

abbrev Uri := String

/-- One stored cell of `ResourceMap._map`: the JS object
`{ readonly resource: Uri; value: T }` (`resourceMap.ts`, line 29). -/
structure RMEntry (T : Type) where
  resource : Uri
  value : T
deriving Repr, DecidableEq

/-- `ResourceMap<T>` (`resourceMap.ts`): the private `_map` is a JS `Map`
from normalized key to entry, modelled as an insertion-ordered association
list. -/
structure ResourceMap (T : Type) where
  _map : List (String × RMEntry T)
deriving Repr, DecidableEq

/-- `isWindowsPath` (`resourceMap.ts`, line 104): the regex test
`/^[a-zA-Z]:[/\\]/.test(path)`. -/
def isWindowsPath (path : String) : Bool :=
  match path.data with
  | c1 :: c2 :: c3 :: _ => c1.isAlpha && c2 == ':' && (c3 == '/' || c3 == '\\')
  | _ => false

/-- `ResourceMap.isCaseInsensitivePath` (`resourceMap.ts`, line 96):
`isWindowsPath(path) || (path[0] === '/' && onCaseInsensitiveFileSystem)`.
Indexing an empty string gives `undefined` in JS, hence `head?`. -/
def isCaseInsensitivePath (onCaseInsensitiveFileSystem : Bool) (path : String) : Bool :=
  isWindowsPath path || (path.data.head? == some '/' && onCaseInsensitiveFileSystem)

/-- `ResourceMap.toKey` (`resourceMap.ts`, line 88): normalize, return the
falsy key (`undefined` or `""`) unchanged, otherwise lowercase when the path
is case-insensitive.  Lowercasing maps `Char.toLower` over the characters,
which is exactly `String.toLower` and agrees with JS `toLowerCase` on the
ASCII paths at issue here. -/
def toKey (normalizePath : Uri → Option String) (ci : Bool) (resource : Uri) : Option String :=
  match normalizePath resource with
  | none => none
  | some key =>
    if key = "" then some key
    else some (if isCaseInsensitivePath ci key then ⟨key.data.map Char.toLower⟩ else key)

namespace ResourceMap

variable {T : Type}

/-- JS `Map.has` on the backing map. -/
def mapHas (m : ResourceMap T) (k : String) : Bool :=
  m._map.any (fun p => p.1 == k)

/-- JS `Map.get` on the backing map. -/
def mapGet (m : ResourceMap T) (k : String) : Option (RMEntry T) :=
  (m._map.find? (fun p => p.1 == k)).map Prod.snd

/-- `ResourceMap.size` (`resourceMap.ts`, line 38). -/
def size (m : ResourceMap T) : Nat :=
  m._map.length

/-- `ResourceMap.has` (`resourceMap.ts`, line 42):
`const file = this.toKey(resource); return !!file && this._map.has(file);`. -/
def has (norm : Uri → Option String) (ci : Bool) (m : ResourceMap T) (r : Uri) : Bool :=
  match toKey norm ci r with
  | none => false
  | some file => file != "" && m.mapHas file

/-- `ResourceMap.get` (`resourceMap.ts`, line 47). -/
def get (norm : Uri → Option String) (ci : Bool) (m : ResourceMap T) (r : Uri) : Option T :=
  match toKey norm ci r with
  | none => none
  | some file =>
    if file = "" then none
    else (m.mapGet file).map RMEntry.value

/-- `ResourceMap.set` (`resourceMap.ts`, line 56): falsy key is a no-op; an
existing entry has its `value` mutated in place (position and original
`resource` retained); otherwise a fresh `{ resource, value }` entry is
appended in JS `Map` insertion order. -/
def set (norm : Uri → Option String) (ci : Bool) (m : ResourceMap T) (r : Uri) (v : T) :
    ResourceMap T :=
  match toKey norm ci r with
  | none => m
  | some file =>
    if file = "" then m
    else if m.mapHas file then
      ⟨m._map.map (fun p => if p.1 == file then (p.1, ⟨p.2.resource, v⟩) else p)⟩
    else
      ⟨m._map ++ [(file, ⟨r, v⟩)]⟩

/-- `ResourceMap.delete` (`resourceMap.ts`, line 69). -/
def delete (norm : Uri → Option String) (ci : Bool) (m : ResourceMap T) (r : Uri) :
    ResourceMap T :=
  match toKey norm ci r with
  | none => m
  | some file =>
    if file = "" then m
    else ⟨m._map.filter (fun p => p.1 != file)⟩

/-- `ResourceMap.clear` (`resourceMap.ts`, line 76). -/
def clear (_m : ResourceMap T) : ResourceMap T :=
  ⟨[]⟩

/-- `ResourceMap.entries` (`resourceMap.ts`, line 84): the stored
`{ resource, value }` cells in iteration order. -/
def entries (m : ResourceMap T) : List (RMEntry T) :=
  m._map.map Prod.snd

/-- `ResourceMap.values` (`resourceMap.ts`, line 80). -/
def values (m : ResourceMap T) : List T :=
  m._map.map (fun p => p.2.value)

/-- Well-formedness of a map reachable through `set`: every stored key is the
truthy normalized key of its stored resource, and keys are distinct. -/
def WF (norm : Uri → Option String) (ci : Bool) (m : ResourceMap T) : Prop :=
  (∀ p ∈ m._map, toKey norm ci p.2.resource = some p.1 ∧ p.1 ≠ "") ∧
    (m._map.map Prod.fst).Nodup

instance (norm : Uri → Option String) (ci : Bool) (m : ResourceMap T) :
    Decidable (WF norm ci m) := by
  unfold WF; infer_instance

end ResourceMap

/-! Embedding of `bufferSyncSupport.ts`.  The claims under check concern the
batching mode (`supportsBatching ⇔ client.apiVersion ≥ v3.4.0`); the
definitions below embed that branch of each method, with the commands sent to
the back-end recorded in a `sent` log. -/

/-- TS protocol `Location`: 1-based `line` and `offset`. -/
structure Location where
  line : Nat
  offset : Nat
deriving Repr, DecidableEq

/-- TS protocol `CodeEdit`. -/
structure CodeEdit where
  newText : String
  start : Location
  «end» : Location
deriving Repr, DecidableEq

/-- TS protocol `FileCodeEdits`. -/
structure FileCodeEdits where
  fileName : String
  textChanges : List CodeEdit
deriving Repr, DecidableEq

/-- TS protocol `OpenRequestArgs` (fields used by `SyncedBuffer.open`). -/
structure OpenRequestArgs where
  file : String
  fileContent : String
  projectRootPath : Option String
  scriptKindName : Option String
deriving Repr, DecidableEq

/-- `BufferOperation` (`bufferSyncSupport.ts`, lines 48-71): the tagged union
of `CloseOperation`, `OpenOperation` and `ChangeOperation`. -/
inductive BufferOperation where
  | Close (args : String)
  | Open (args : OpenRequestArgs)
  | Change (args : FileCodeEdits)
deriving Repr, DecidableEq

/-- Argument of one batched `UpdateOpen` command (`bufferSyncSupport.ts`,
line 180). -/
structure UpdateOpenArgs where
  changedFiles : List FileCodeEdits
  closedFiles : List String
  openFiles : List OpenRequestArgs
deriving Repr, DecidableEq

/-- State of a `BufferSynchronizer` in batching mode: the `_pending` map and
the log of `UpdateOpen` commands issued to the client so far. -/
structure SynchronizerState where
  pending : ResourceMap BufferOperation
  sent : List UpdateOpenArgs
deriving Repr, DecidableEq

/-- The partition loop inside `BufferSynchronizer.flush`
(`bufferSyncSupport.ts`, lines 170-179): pending operations are pushed onto
`closedFiles` / `openFiles` / `changedFiles` by type, in map iteration
order. -/
def flushPartition (ops : List BufferOperation) : UpdateOpenArgs where
  changedFiles := ops.filterMap fun op =>
    match op with
    | .Change a => some a
    | _ => none
  closedFiles := ops.filterMap fun op =>
    match op with
    | .Close a => some a
    | _ => none
  openFiles := ops.filterMap fun op =>
    match op with
    | .Open a => some a
    | _ => none

/-- `BufferSynchronizer.flush` in batching mode (`bufferSyncSupport.ts`,
lines 169-182): when something is pending, send one `UpdateOpen` and clear
the pending map. -/
def flush (s : SynchronizerState) : SynchronizerState :=
  if s.pending.size > 0 then
    { pending := s.pending.clear, sent := s.sent ++ [flushPartition s.pending.values] }
  else s

/-- `BufferSynchronizer.updatePending` (`bufferSyncSupport.ts`, lines
189-208).  Returns the new state and the boolean result. -/
def updatePending (norm : Uri → Option String) (ci : Bool) (s : SynchronizerState)
    (resource : Uri) (op : BufferOperation) : SynchronizerState × Bool :=
  match op, s.pending.get norm ci resource with
  | .Close _, some (.Open _) =>
    ({ s with pending := s.pending.delete norm ci resource }, false)
  | _, _ =>
    let s1 := if s.pending.has norm ci resource then flush s else s
    ({ s1 with pending := s1.pending.set norm ci resource op }, true)

/-- `BufferSynchronizer.open` in batching mode (`bufferSyncSupport.ts`,
line 91): `updatePending(resource, new OpenOperation(args))`. -/
def syncOpen (norm : Uri → Option String) (ci : Bool) (s : SynchronizerState)
    (resource : Uri) (args : OpenRequestArgs) : SynchronizerState :=
  (updatePending norm ci s resource (.Open args)).1

/-- `BufferSynchronizer.close` in batching mode (`bufferSyncSupport.ts`,
line 102): `updatePending(resource, new CloseOperation(filepath))`. -/
def syncClose (norm : Uri → Option String) (ci : Bool) (s : SynchronizerState)
    (resource : Uri) (filepath : String) : SynchronizerState × Bool :=
  updatePending norm ci s resource (.Close filepath)

/-- LSP `Position`: 0-based `line` and `character`. -/
structure LspPosition where
  line : Nat
  character : Nat
deriving Repr, DecidableEq

/-- LSP `Range`. -/
structure LspRange where
  start : LspPosition
  «end» : LspPosition
deriving Repr, DecidableEq

/-- One `lsp.TextDocumentContentChangeEvent`: `range = none` models the
full-text variant (the JS code tests `'range' in change`). -/
structure ContentChangeEvent where
  range : Option LspRange
  text : String
deriving Repr, DecidableEq

/-- Modelled from the spec: `typeConverters.Position.toLocation` lives in
`src/utils/typeConverters.ts`, which is not part of this repository snapshot;
the spec states that each LSP content change is "translated to an edit
`(start, end, newText)` using 1-based line/column positions", so the 0-based
LSP position becomes a 1-based TS protocol location. -/
def positionToLocation (p : LspPosition) : Location where
  line := p.line + 1
  offset := p.character + 1

/-- The edit-collection loop of `BufferSynchronizer.change`
(`bufferSyncSupport.ts`, lines 118-130): events without a range are skipped,
ranged events become `CodeEdit`s in editor event order. -/
def changeEdits (events : List ContentChangeEvent) : List CodeEdit :=
  events.filterMap fun change =>
    match change.range with
    | none => none
    | some r =>
      some { newText := change.text
             start := positionToLocation r.start
             «end» := positionToLocation r.«end» }

/-- `BufferSynchronizer.change` in batching mode (`bufferSyncSupport.ts`,
lines 112-134): empty event lists return immediately; otherwise the collected
edits are reversed (end-of-document first) and stored as a pending
`ChangeOperation`. -/
def syncChange (norm : Uri → Option String) (ci : Bool) (s : SynchronizerState)
    (resource : Uri) (filepath : String) (events : List ContentChangeEvent) :
    SynchronizerState :=
  if events.isEmpty then s
  else
    (updatePending norm ci s resource
      (.Change { fileName := filepath, textChanges := (changeEdits events).reverse })).1

/-- `BufferState.Initial` (`bufferSyncSupport.ts`, line 33).  The source is a
`const enum`, so only the numeric tags exist at runtime. -/
def BufferState.Initial : Nat := 1

/-- `BufferState.Open` (`bufferSyncSupport.ts`, line 34). -/
def BufferState.Open : Nat := 2

/-- `BufferState.Closed` (`bufferSyncSupport.ts`, line 35).  The source
declares `Closed = 2`, the same numeric tag as `Open`. -/
def BufferState.Closed : Nat := 2

/-- `SyncedBuffer.close` (`bufferSyncSupport.ts`, lines 269-276), with the
batching synchronizer state passed explicitly.  Returns the buffer's new
`state`, the synchronizer's new state, and the boolean result. -/
def SyncedBuffer.close (norm : Uri → Option String) (ci : Bool) (state : Nat)
    (sync : SynchronizerState) (resource : Uri) (filepath : String) :
    Nat × SynchronizerState × Bool :=
  if state ≠ BufferState.Open then
    (BufferState.Closed, sync, false)
  else
    let r := syncClose norm ci sync resource filepath
    (BufferState.Closed, r.1, r.2)

/-- Language mode ids (`src/utils/languageIds.ts`, mirrored by their use in
`bufferSyncSupport.ts`). -/
def languageModeIds.typescript : String := "typescript"

def languageModeIds.typescriptreact : String := "typescriptreact"

def languageModeIds.javascript : String := "javascript"

def languageModeIds.javascriptreact : String := "javascriptreact"

/-- `BufferKind` (`bufferSyncSupport.ts`, lines 27-30). -/
inductive BufferKind where
  | TypeScript
  | JavaScript
deriving Repr, DecidableEq

/-- The document data a `SyncedBuffer` reads (`document.uri`,
`document.languageId`, `document.lineCount`); `resource` is the parsed
`document.uri`. -/
structure SyncedBufferModel where
  resource : Uri
  filepath : String
  languageId : String
  lineCount : Nat
deriving Repr, DecidableEq

/-- `SyncedBuffer.kind` (`bufferSyncSupport.ts`, lines 253-264):
`javascript`/`javascriptreact` are JavaScript, everything else (including the
default case) is TypeScript. -/
def SyncedBufferModel.kind (b : SyncedBufferModel) : BufferKind :=
  if b.languageId = languageModeIds.javascript ∨
      b.languageId = languageModeIds.javascriptreact then
    .JavaScript
  else
    .TypeScript

/-- Stable insertion into a list sorted by ascending `value`: the new entry
goes after every existing entry whose `value` is `≤` its own.  Together with
`sortByValue` this models the JS `Array.prototype.sort` call with comparator
`(a, b) => a.value - b.value`, which is guaranteed stable. -/
def insertByValue (e : RMEntry Nat) : List (RMEntry Nat) → List (RMEntry Nat)
  | [] => [e]
  | f :: fs => if f.value ≤ e.value then f :: insertByValue e fs else e :: f :: fs

/-- Stable sort of entries by ascending `value` (the enqueue timestamp). -/
def sortByValue (l : List (RMEntry Nat)) : List (RMEntry Nat) :=
  l.foldl (fun acc e => insertByValue e acc) []

/-- `PendingDiagnostics.getOrderedFileSet` (`bufferSyncSupport.ts`, lines
298-308): sort the entries by stored timestamp, keep the resources, and
insert them in that order into a fresh set-valued `ResourceMap` built with
the same normalizer and config. -/
def getOrderedFileSet (norm : Uri → Option String) (ci : Bool) (m : ResourceMap Nat) :
    ResourceMap Unit :=
  let orderedResources := (sortByValue m.entries).map RMEntry.resource
  orderedResources.foldl (fun acc r => ResourceMap.set norm ci acc r ()) ⟨[]⟩

/-- Observable state of a `GetErrRequest`: the `_done` flag and the number of
times `onDone` has run (or has been scheduled to run, for the
`setImmediate` early paths, whose callback the platform runs exactly
once). -/
structure GetErrState where
  done : Bool
  onDoneCount : Nat
deriving Repr, DecidableEq

/-- `GetErrRequest.isErrorReportingEnabled` (`bufferSyncSupport.ts`, lines
359-366): true when `apiVersion ≥ v4.4.0`, else only with the `Semantic`
client capability. -/
def isErrorReportingEnabled (apiGte440 hasSemanticCap : Bool) : Bool :=
  apiGte440 || hasSemanticCap

/-- The `allFiles` computation in the `GetErrRequest` constructor
(`bufferSyncSupport.ts`, lines 334-337): filter the requested resources by
syntax-geterr support or per-resource semantic capability, map through
`toTsFilePath`, and drop the unresolvable ones (`coalesce`). -/
def getErrAllFiles (supportsSyntaxGetErr : Bool) (hasSemanticCapForResource : Uri → Bool)
    (toTsFilePath : Uri → Option String) (files : List Uri) : List String :=
  (files.filter fun r => supportsSyntaxGetErr || hasSemanticCapForResource r).filterMap
    toTsFilePath

/-- The `GetErrRequest` constructor (`bufferSyncSupport.ts`, lines 323-357).
Returns the initial state and whether a back-end request was issued.  In the
two early paths `_done` is set and `onDone` is scheduled via `setImmediate`
(counted here, since the platform runs it exactly once); otherwise
`executeAsync` is issued with a `finally` continuation. -/
def getErrInit (apiGte440 hasSemanticCap : Bool) (hasSemanticCapForResource : Uri → Bool)
    (toTsFilePath : Uri → Option String) (files : List Uri) : GetErrState × Bool :=
  if !isErrorReportingEnabled apiGte440 hasSemanticCap then
    ({ done := true, onDoneCount := 1 }, false)
  else if (getErrAllFiles apiGte440 hasSemanticCapForResource toTsFilePath files).isEmpty then
    ({ done := true, onDoneCount := 1 }, false)
  else
    ({ done := false, onDoneCount := 0 }, true)

/-- Events a live `GetErrRequest` can observe: the issued request settling
(success, failure or cancellation — a promise settles exactly once, so its
`finally` continuation runs exactly once), and calls to `cancel()`. -/
inductive GetErrEvent where
  | settled
  | cancel
deriving Repr, DecidableEq

/-- One event step.  The `finally` continuation (`bufferSyncSupport.ts`,
lines 349-355) is guarded by `_done`; `GetErrRequest.cancel` (lines 372-378)
only signals and disposes the token source — it touches neither `_done` nor
`onDone`. -/
def getErrStep (s : GetErrState) : GetErrEvent → GetErrState
  | .settled => if s.done then s else { done := true, onDoneCount := s.onDoneCount + 1 }
  | .cancel => s

/-- Run a `GetErrRequest` through a sequence of events. -/
def getErrRun (s : GetErrState) (evs : List GetErrEvent) : GetErrState :=
  evs.foldl getErrStep s

/-- Number of `settled` events in a trace. -/
def countSettled : List GetErrEvent → Nat
  | [] => 0
  | .settled :: es => countSettled es + 1
  | .cancel :: es => countSettled es

/-- A `vscode.Tab` as the tracker uses it: an identity (JS `Set` membership
is object identity) together with the result of `getResourcesForTab`
(`bufferSyncSupport.ts`, lines 451-461), which yields zero, one or two URIs
depending on the tab-input variant. -/
structure TabModel where
  id : Nat
  resources : List Uri
deriving Repr, DecidableEq

/-- JS `Set.add`: append unless already present. -/
def setAdd (s : List TabModel) (t : TabModel) : List TabModel :=
  if s.contains t then s else s ++ [t]

/-- JS `Set.delete`: remove the element if present. -/
def setDelete (s : List TabModel) (t : TabModel) : List TabModel :=
  s.eraseP (fun x => x == t)

/-- State of a `TabResourceTracker`: its `_tabResources` map from URI to the
tab set of the stored `{ readonly tabs: Set<vscode.Tab> }` entry. -/
abbrev TrackerState := ResourceMap (List TabModel)

/-- `TabResourceTracker.has` (`bufferSyncSupport.ts`, lines 415-418):
`const entry = this._tabResources.get(resource); return !!entry && entry.tabs.size > 0;`. -/
def trackerHas (norm : Uri → Option String) (ci : Bool) (m : TrackerState) (r : Uri) :
    Bool :=
  match ResourceMap.get norm ci m r with
  | none => false
  | some tabs => tabs.length > 0

/-- Body of the per-URI loop of `TabResourceTracker.add`
(`bufferSyncSupport.ts`, lines 422-429): either mutate the existing entry's
tab set in place, or store a fresh singleton entry and report the URI as
newly opened. -/
def trackerAddStep (norm : Uri → Option String) (ci : Bool) (tab : TabModel)
    (acc : TrackerState × List Uri) (uri : Uri) : TrackerState × List Uri :=
  match ResourceMap.get norm ci acc.1 uri with
  | some tabs => (ResourceMap.set norm ci acc.1 uri (setAdd tabs tab), acc.2)
  | none => (ResourceMap.set norm ci acc.1 uri [tab], acc.2 ++ [uri])

/-- `TabResourceTracker.add` (`bufferSyncSupport.ts`, lines 420-432).
Returns the new state and `addedResources`. -/
def trackerAdd (norm : Uri → Option String) (ci : Bool) (m : TrackerState)
    (tab : TabModel) : TrackerState × List Uri :=
  tab.resources.foldl (trackerAddStep norm ci tab) (m, [])

/-- Body of the per-URI loop of `TabResourceTracker.delete`
(`bufferSyncSupport.ts`, lines 436-447): remove the tab from the entry's set;
when the set becomes empty, drop the entry and report the URI as newly
closed. -/
def trackerDeleteStep (norm : Uri → Option String) (ci : Bool) (tab : TabModel)
    (acc : TrackerState × List Uri) (uri : Uri) : TrackerState × List Uri :=
  match ResourceMap.get norm ci acc.1 uri with
  | none => acc
  | some tabs =>
    if (setDelete tabs tab).length = 0 then
      (ResourceMap.delete norm ci acc.1 uri, acc.2 ++ [uri])
    else
      (ResourceMap.set norm ci acc.1 uri (setDelete tabs tab), acc.2)

/-- `TabResourceTracker.delete` (`bufferSyncSupport.ts`, lines 434-449).
Returns the new state and `closedResources`. -/
def trackerDelete (norm : Uri → Option String) (ci : Bool) (m : TrackerState)
    (tab : TabModel) : TrackerState × List Uri :=
  tab.resources.foldl (trackerDeleteStep norm ci tab) (m, [])

/-- One tab-tracker input: a tab being opened or closed. -/
inductive TabOp where
  | add (t : TabModel)
  | del (t : TabModel)
deriving Repr, DecidableEq

/-- State transition of the tracker for one tab event. -/
def trackerStep (norm : Uri → Option String) (ci : Bool) (m : TrackerState) :
    TabOp → TrackerState
  | .add t => (trackerAdd norm ci m t).1
  | .del t => (trackerDelete norm ci m t).1

/-- Run the tracker over a sequence of tab events. -/
def trackerRun (norm : Uri → Option String) (ci : Bool) (m : TrackerState)
    (ops : List TabOp) : TrackerState :=
  ops.foldl (trackerStep norm ci) m

/-- Tracker invariant: the map is well-formed and every stored tab set is
non-empty. -/
def TrackerInv (norm : Uri → Option String) (ci : Bool) (m : TrackerState) : Prop :=
  m.WF norm ci ∧ ∀ e ∈ m.entries, e.value ≠ []

instance (norm : Uri → Option String) (ci : Bool) (m : TrackerState) :
    Decidable (TrackerInv norm ci m) := by
  unfold TrackerInv; infer_instance

/-- The orchestrator configuration read by `shouldValidate`:
`client.configuration.enableProjectDiagnostics` and the
`_validateJavaScript` / `_validateTypeScript` flags. -/
structure SyncConfigModel where
  enableProjectDiagnostics : Bool
  validateJavaScript : Bool
  validateTypeScript : Bool
deriving Repr, DecidableEq

/-- `BufferSyncSupport.shouldValidate` (`bufferSyncSupport.ts`, lines
755-768). -/
def shouldValidate (norm : Uri → Option String) (ci : Bool) (cfg : SyncConfigModel)
    (tabs : TrackerState) (b : SyncedBufferModel) : Bool :=
  if !cfg.enableProjectDiagnostics && !trackerHas norm ci tabs b.resource then
    false
  else
    match b.kind with
    | .JavaScript => cfg.validateJavaScript
    | .TypeScript => cfg.validateTypeScript

/-- The orchestrator state touched by `requestDiagnostic`: the
`pendingDiagnostics` map and the log of delays passed to
`triggerDiagnostics` (i.e. to `diagnosticDelayer.trigger`). -/
structure DiagState where
  pendingDiagnostics : ResourceMap Nat
  triggeredDelays : List Nat
deriving Repr, DecidableEq

/-- `BufferSyncSupport.requestDiagnostic` (`bufferSyncSupport.ts`, lines
700-710).  `Math.ceil(lineCount / 20)` on naturals is `(lineCount + 19) / 20`;
the delay is `Math.min(Math.max(ceil, 300), 800)`. -/
def requestDiagnostic (norm : Uri → Option String) (ci : Bool) (cfg : SyncConfigModel)
    (tabs : TrackerState) (s : DiagState) (b : SyncedBufferModel) (now : Nat) :
    DiagState × Bool :=
  if !shouldValidate norm ci cfg tabs b then
    (s, false)
  else
    let delay := min (max ((b.lineCount + 19) / 20) 300) 800
    ({ pendingDiagnostics := ResourceMap.set norm ci s.pendingDiagnostics b.resource now,
       triggeredDelays := s.triggeredDelays ++ [delay] }, true)

/-- A list in which no pair carries the key `k` contributes nothing to
`find?` for that key. -/
theorem find?_key_append {T : Type} (l₁ l₂ : List (String × RMEntry T)) (k : String)
    (h : ∀ p ∈ l₁, (p.1 == k) = false) :
    (l₁ ++ l₂).find? (fun p => p.1 == k) = l₂.find? (fun p => p.1 == k) := by
  induction l₁ with
  | nil => rfl
  | cons a l ih =>
    have ha := h a (by simp)
    simp only [List.cons_append, List.find?, ha]
    exact ih fun p hp => h p (by simp [hp])

/-- Mapping the in-place update over a list with no matching key is the
identity. -/
theorem map_update_no_match {T : Type} (l : List (String × RMEntry T)) (k : String) (v : T)
    (h : ∀ p ∈ l, (p.1 == k) = false) :
    l.map (fun p => if p.1 == k then (p.1, (⟨p.2.resource, v⟩ : RMEntry T)) else p) = l := by
  induction l with
  | nil => rfl
  | cons a l ih =>
    have ha := h a (by simp)
    have htail := ih fun p hp => h p (by simp [hp])
    simp only [List.map_cons, ha]
    rw [if_neg (by simp), htail]

/-- Filtering away a key absent from the list is the identity. -/
theorem filter_no_match {T : Type} (l : List (String × RMEntry T)) (k : String)
    (h : ∀ p ∈ l, (p.1 == k) = false) :
    l.filter (fun p => p.1 != k) = l := by
  induction l with
  | nil => rfl
  | cons a l ih =>
    have ha := h a (by simp)
    simp only [List.filter_cons]
    rw [if_pos (by simp [bne, ha])]
    simp only [List.cons.injEq, true_and]
    exact ih fun p hp => h p (by simp [hp])

theorem mapHas_false_elim {T : Type} {m : ResourceMap T} {k : String}
    (h : m.mapHas k = false) : ∀ p ∈ m._map, (p.1 == k) = false := by
  intro p hp
  by_contra hc
  have : m.mapHas k = true := by
    unfold ResourceMap.mapHas
    exact List.any_eq_true.mpr ⟨p, hp, by simpa using hc⟩
  simp [this] at h

theorem mapGet_eq_none {T : Type} {m : ResourceMap T} {k : String}
    (h : m.mapHas k = false) : m.mapGet k = none := by
  unfold ResourceMap.mapGet
  rw [List.find?_eq_none.mpr]
  · rfl
  · intro p hp
    simp [mapHas_false_elim h p hp]

/-- In the in-place-update branch of `set`, looking the key up afterwards
yields the new value. -/
theorem find?_map_update_value {T : Type} (l : List (String × RMEntry T)) (k : String)
    (v : T) (h : l.any (fun p => p.1 == k) = true) :
    ((l.map (fun p => if p.1 == k then (p.1, (⟨p.2.resource, v⟩ : RMEntry T)) else p)).find?
        (fun p => p.1 == k)).map (fun p => p.2.value) = some v := by
  induction l with
  | nil => simp at h
  | cons a l ih =>
    by_cases ha : (a.1 == k) = true
    · simp only [List.map_cons, if_pos ha]
      rw [List.find?_cons_of_pos _ (by simpa using ha)]
      rfl
    · have ha' : (a.1 == k) = false := by simpa using ha
      have hifa : (if (a.1 == k) = true then (a.1, (⟨a.2.resource, v⟩ : RMEntry T)) else a) = a :=
        if_neg (by simp [ha'])
      simp only [List.map_cons, hifa]
      rw [List.find?_cons_of_neg _ (by simp [ha'])]
      refine ih ?_
      rcases List.any_eq_true.mp h with ⟨p, hp, hpk⟩
      rcases List.mem_cons.mp hp with rfl | hp'
      · simp [ha'] at hpk
      · exact List.any_eq_true.mpr ⟨p, hp', hpk⟩

/-- `get` after `set` with the same (truthy) key returns the new value. -/
theorem get_set_self {T : Type} (norm : Uri → Option String) (ci : Bool)
    (m : ResourceMap T) (r : Uri) (v : T) (k : String)
    (hk : toKey norm ci r = some k) (hne : k ≠ "") :
    ResourceMap.get norm ci (ResourceMap.set norm ci m r v) r = some v := by
  simp only [ResourceMap.get, ResourceMap.set, hk, if_neg hne]
  by_cases hhas : m.mapHas k = true
  · rw [if_pos hhas]
    simp only [ResourceMap.mapGet, Option.map_map]
    exact find?_map_update_value m._map k v hhas
  · have hhas' : m.mapHas k = false := by simpa using hhas
    rw [if_neg hhas]
    simp only [ResourceMap.mapGet]
    rw [find?_key_append m._map [(k, ⟨r, v⟩)] k (mapHas_false_elim hhas')]
    simp [List.find?]

/-- `set` on an absent (truthy) key appends a fresh entry carrying the
inserted URI. -/
theorem set_append_of_not_has {T : Type} (norm : Uri → Option String) (ci : Bool)
    (m : ResourceMap T) (r : Uri) (v : T) (k : String)
    (hk : toKey norm ci r = some k) (hne : k ≠ "") (habs : m.mapHas k = false) :
    (ResourceMap.set norm ci m r v)._map = m._map ++ [(k, ⟨r, v⟩)] := by
  simp only [ResourceMap.set, hk, if_neg hne, habs]
  simp

/-- `has` is false when the key is absent. -/
theorem has_eq_false_of_not_mapHas {T : Type} (norm : Uri → Option String) (ci : Bool)
    (m : ResourceMap T) (r : Uri) (k : String)
    (hk : toKey norm ci r = some k) (habs : m.mapHas k = false) :
    ResourceMap.has norm ci m r = false := by
  simp [ResourceMap.has, hk, habs]

/-- Deleting the key just appended to a key-free prefix restores the map. -/
theorem delete_append_self {T : Type} (norm : Uri → Option String) (ci : Bool)
    (m : ResourceMap T) (r r' : Uri) (v : T) (k : String)
    (hk : toKey norm ci r' = some k) (hne : k ≠ "") (habs : m.mapHas k = false) :
    ResourceMap.delete norm ci (⟨m._map ++ [(k, ⟨r, v⟩)]⟩ : ResourceMap T) r' = m := by
  simp only [ResourceMap.delete, hk, if_neg hne]
  rw [List.filter_append, filter_no_match m._map k (mapHas_false_elim habs)]
  simp

/-- `set` through a same-key URI on a map whose key sits at the end of a
key-free prefix updates the value in place, keeping the stored resource. -/
theorem set_update_append {T : Type} (norm : Uri → Option String) (ci : Bool)
    (m1 : ResourceMap T) (u' : Uri) (v' : T) (k : String)
    (pre : List (String × RMEntry T)) (u : Uri) (v : T)
    (hm1 : m1._map = pre ++ [(k, ⟨u, v⟩)])
    (hk' : toKey norm ci u' = some k) (hne : k ≠ "")
    (helim : ∀ p ∈ pre, (p.1 == k) = false) :
    (ResourceMap.set norm ci m1 u' v')._map = pre ++ [(k, ⟨u, v'⟩)] := by
  have hhas : m1.mapHas k = true := by
    unfold ResourceMap.mapHas
    rw [hm1]
    exact List.any_eq_true.mpr ⟨(k, ⟨u, v⟩), by simp, by simp⟩
  simp only [ResourceMap.set, hk']
  rw [if_neg hne, if_pos hhas]
  rw [hm1, List.map_append, map_update_no_match pre k v' helim]
  simp

/-- C10: if the path normalizer returns the empty string for a URI (as
opposed to `undefined`), `ResourceMap` treats it the same as an unresolvable
key: `has` returns false, `get` returns `undefined`, and `set` and `delete`
are no-ops, so no entry keyed by the empty string is ever created. -/
theorem resourceMap_empty_key_is_noop {T : Type} (norm : Uri → Option String) (ci : Bool)
    (m : ResourceMap T) (u : Uri) (v : T) (h : norm u = some "") :
    ResourceMap.has norm ci m u = false ∧ ResourceMap.get norm ci m u = none ∧
    ResourceMap.set norm ci m u v = m ∧ ResourceMap.delete norm ci m u = m := by
  have hk : toKey norm ci u = some "" := by simp [toKey, h]
  refine ⟨?_, ?_, ?_, ?_⟩ <;>
    simp [ResourceMap.has, ResourceMap.get, ResourceMap.set, ResourceMap.delete, hk]

theorem resourceMap_empty_key_is_noop_witness :
    (fun (_ : Uri) => some "") "file:///a.ts" = some "" ∧
    (ResourceMap.has (fun _ => some "") false
        (⟨[("k", ⟨"file:///b.ts", 7⟩)]⟩ : ResourceMap Nat) "file:///a.ts" = false ∧
      ResourceMap.get (fun _ => some "") false
        (⟨[("k", ⟨"file:///b.ts", 7⟩)]⟩ : ResourceMap Nat) "file:///a.ts" = none ∧
      ResourceMap.set (fun _ => some "") false
        (⟨[("k", ⟨"file:///b.ts", 7⟩)]⟩ : ResourceMap Nat) "file:///a.ts" 9 =
        (⟨[("k", ⟨"file:///b.ts", 7⟩)]⟩ : ResourceMap Nat) ∧
      ResourceMap.delete (fun _ => some "") false
        (⟨[("k", ⟨"file:///b.ts", 7⟩)]⟩ : ResourceMap Nat) "file:///a.ts" =
        (⟨[("k", ⟨"file:///b.ts", 7⟩)]⟩ : ResourceMap Nat)) :=
  ⟨rfl, resourceMap_empty_key_is_noop (fun _ => some "") false _ "file:///a.ts" 9 rfl⟩

/-- C3: inserting a URI `u` into a fresh key of a `ResourceMap` appends an
entry whose `resource` is the original `u`; a later `set` through a URI `u'`
normalizing to the same key replaces the value in place while retaining the
first-inserted URI, and `get` through `u'` (e.g. a differently-cased
Windows-style path) retrieves the value stored under the original casing. -/
theorem resourceMap_set_preserves_uri {T : Type} (norm : Uri → Option String) (ci : Bool)
    (m : ResourceMap T) (u u' : Uri) (v v' : T) (k : String)
    (hk : toKey norm ci u = some k) (hk' : toKey norm ci u' = some k) (hne : k ≠ "")
    (habs : m.mapHas k = false) :
    (ResourceMap.set norm ci m u v)._map = m._map ++ [(k, ⟨u, v⟩)] ∧
    (ResourceMap.set norm ci (ResourceMap.set norm ci m u v) u' v')._map
      = m._map ++ [(k, ⟨u, v'⟩)] ∧
    (⟨u, v'⟩ : RMEntry T) ∈
      (ResourceMap.set norm ci (ResourceMap.set norm ci m u v) u' v').entries ∧
    ResourceMap.get norm ci (ResourceMap.set norm ci m u v) u' = some v ∧
    ResourceMap.get norm ci
      (ResourceMap.set norm ci (ResourceMap.set norm ci m u v) u' v') u' = some v' := by
  have helim := mapHas_false_elim habs
  have hm1 : (ResourceMap.set norm ci m u v)._map = m._map ++ [(k, ⟨u, v⟩)] :=
    set_append_of_not_has norm ci m u v k hk hne habs
  have hm2 : (ResourceMap.set norm ci (ResourceMap.set norm ci m u v) u' v')._map
      = m._map ++ [(k, ⟨u, v'⟩)] :=
    set_update_append norm ci _ u' v' k m._map u v hm1 hk' hne helim
  refine ⟨hm1, hm2, ?_, ?_, ?_⟩
  · unfold ResourceMap.entries
    rw [hm2]
    simp
  · -- `get` through `u'` after the first insertion
    have h1 : ResourceMap.get norm ci (ResourceMap.set norm ci m u v) u' = some v := by
      simp only [ResourceMap.get, hk', if_neg hne, ResourceMap.mapGet]
      rw [hm1, find?_key_append m._map [(k, ⟨u, v⟩)] k helim]
      simp [List.find?]
    exact h1
  · simp only [ResourceMap.get, hk', if_neg hne, ResourceMap.mapGet]
    rw [hm2, find?_key_append m._map [(k, ⟨u, v'⟩)] k helim]
    simp [List.find?]

theorem resourceMap_set_preserves_uri_witness :
    toKey (fun s => some s) false "C:/Foo/Bar.ts" = some "c:/foo/bar.ts" ∧
    toKey (fun s => some s) false "c:/foo/bar.ts" = some "c:/foo/bar.ts" ∧
    "c:/foo/bar.ts" ≠ "" ∧
    (⟨[]⟩ : ResourceMap Nat).mapHas "c:/foo/bar.ts" = false ∧
    ((ResourceMap.set (fun s => some s) false (⟨[]⟩ : ResourceMap Nat) "C:/Foo/Bar.ts" 1)._map
        = [] ++ [("c:/foo/bar.ts", ⟨"C:/Foo/Bar.ts", 1⟩)] ∧
      (ResourceMap.set (fun s => some s) false
          (ResourceMap.set (fun s => some s) false (⟨[]⟩ : ResourceMap Nat) "C:/Foo/Bar.ts" 1)
          "c:/foo/bar.ts" 2)._map = [] ++ [("c:/foo/bar.ts", ⟨"C:/Foo/Bar.ts", 2⟩)] ∧
      (⟨"C:/Foo/Bar.ts", 2⟩ : RMEntry Nat) ∈
        (ResourceMap.set (fun s => some s) false
          (ResourceMap.set (fun s => some s) false (⟨[]⟩ : ResourceMap Nat) "C:/Foo/Bar.ts" 1)
          "c:/foo/bar.ts" 2).entries ∧
      ResourceMap.get (fun s => some s) false
        (ResourceMap.set (fun s => some s) false (⟨[]⟩ : ResourceMap Nat) "C:/Foo/Bar.ts" 1)
        "c:/foo/bar.ts" = some 1 ∧
      ResourceMap.get (fun s => some s) false
        (ResourceMap.set (fun s => some s) false
          (ResourceMap.set (fun s => some s) false (⟨[]⟩ : ResourceMap Nat) "C:/Foo/Bar.ts" 1)
          "c:/foo/bar.ts" 2) "c:/foo/bar.ts" = some 2) :=
  ⟨by decide, by decide, by decide, by decide,
    resourceMap_set_preserves_uri (fun s => some s) false ⟨[]⟩ "C:/Foo/Bar.ts"
      "c:/foo/bar.ts" 1 2 "c:/foo/bar.ts" (by decide) (by decide) (by decide) (by decide)⟩

/-- C1 (recording the code defect): in the source, `BufferState.Closed` is
declared with the same numeric tag as `BufferState.Open` (`Closed = 2`,
`Open = 2`), so a buffer closed from the `Initial` state does transition to
`Closed` and return false — but a second `close()` finds `state` numerically
equal to `Open`, delegates to the synchronizer (adding a pending
`CloseOperation`), and returns true, contradicting both the claim and the
method's own documentation (`@return Was the buffer open?`). -/
theorem syncedBuffer_close_enum_collision :
    SyncedBuffer.close (fun s => some s) false BufferState.Initial
        (⟨⟨[]⟩, []⟩ : SynchronizerState) "file:///a.ts" "/a.ts"
      = (BufferState.Closed, (⟨⟨[]⟩, []⟩ : SynchronizerState), false) ∧
    BufferState.Closed = BufferState.Open ∧
    SyncedBuffer.close (fun s => some s) false BufferState.Closed
        (⟨⟨[]⟩, []⟩ : SynchronizerState) "file:///a.ts" "/a.ts"
      = (BufferState.Closed,
          (⟨⟨[("file:///a.ts", ⟨"file:///a.ts", .Close "/a.ts"⟩)]⟩, []⟩ : SynchronizerState),
          true) := by
  refine ⟨by decide, rfl, by decide⟩

/-- C7: `shouldValidate` returns false when project diagnostics are disabled
and the buffer's resource has no tab in the tab tracker; otherwise it equals
the per-kind flag: `validateJavaScript` for JavaScript buffers,
`validateTypeScript` for TypeScript buffers. -/
theorem shouldValidate_spec (norm : Uri → Option String) (ci : Bool)
    (cfg : SyncConfigModel) (tabs : TrackerState) (b : SyncedBufferModel) :
    (cfg.enableProjectDiagnostics = false → trackerHas norm ci tabs b.resource = false →
      shouldValidate norm ci cfg tabs b = false) ∧
    (cfg.enableProjectDiagnostics = true ∨ trackerHas norm ci tabs b.resource = true →
      shouldValidate norm ci cfg tabs b =
        match b.kind with
        | .JavaScript => cfg.validateJavaScript
        | .TypeScript => cfg.validateTypeScript) := by
  constructor
  · intro h1 h2
    simp [shouldValidate, h1, h2]
  · intro h
    rcases h with h | h <;> simp [shouldValidate, h]

theorem shouldValidate_spec_witness :
    ((⟨false, true, true⟩ : SyncConfigModel).enableProjectDiagnostics = false ∧
      trackerHas (fun s => some s) false (⟨[]⟩ : TrackerState) "file:///x.ts" = false ∧
      shouldValidate (fun s => some s) false ⟨false, true, true⟩ (⟨[]⟩ : TrackerState)
        ⟨"file:///x.ts", "/x.ts", "typescript", 10⟩ = false) ∧
    ((⟨true, true, false⟩ : SyncConfigModel).enableProjectDiagnostics = true ∧
      shouldValidate (fun s => some s) false ⟨true, true, false⟩ (⟨[]⟩ : TrackerState)
        ⟨"file:///x.ts", "/x.ts", "typescript", 10⟩ =
        match (⟨"file:///x.ts", "/x.ts", "typescript", 10⟩ : SyncedBufferModel).kind with
        | .JavaScript => (⟨true, true, false⟩ : SyncConfigModel).validateJavaScript
        | .TypeScript => (⟨true, true, false⟩ : SyncConfigModel).validateTypeScript) :=
  ⟨⟨rfl, by decide,
    (shouldValidate_spec (fun s => some s) false ⟨false, true, true⟩ ⟨[]⟩
      ⟨"file:///x.ts", "/x.ts", "typescript", 10⟩).1 rfl (by decide)⟩,
   ⟨rfl,
    (shouldValidate_spec (fun s => some s) false ⟨true, true, false⟩ ⟨[]⟩
      ⟨"file:///x.ts", "/x.ts", "typescript", 10⟩).2 (Or.inl rfl)⟩⟩

/-- C8: `requestDiagnostic` returns false (and changes nothing) when the
buffer is not validatable; otherwise it stores `(resource, now)` in the
pending-diagnostics map, triggers the delayer with
`min (max ⌈lineCount/20⌉ 300) 800` milliseconds — the ceiling clamped to
`[300, 800]` — and returns true. -/
theorem requestDiagnostic_spec (norm : Uri → Option String) (ci : Bool)
    (cfg : SyncConfigModel) (tabs : TrackerState) (s : DiagState)
    (b : SyncedBufferModel) (now : Nat) :
    (shouldValidate norm ci cfg tabs b = false →
      requestDiagnostic norm ci cfg tabs s b now = (s, false)) ∧
    (shouldValidate norm ci cfg tabs b = true →
      requestDiagnostic norm ci cfg tabs s b now =
        ({ pendingDiagnostics := ResourceMap.set norm ci s.pendingDiagnostics b.resource now,
           triggeredDelays :=
             s.triggeredDelays ++ [min (max ((b.lineCount + 19) / 20) 300) 800] }, true) ∧
      (∀ k, toKey norm ci b.resource = some k → k ≠ "" →
        ResourceMap.get norm ci
          (requestDiagnostic norm ci cfg tabs s b now).1.pendingDiagnostics b.resource
          = some now) ∧
      300 ≤ min (max ((b.lineCount + 19) / 20) 300) 800 ∧
      min (max ((b.lineCount + 19) / 20) 300) 800 ≤ 800) := by
  constructor
  · intro h
    simp [requestDiagnostic, h]
  · intro h
    refine ⟨by simp [requestDiagnostic, h], ?_, ?_, min_le_right _ _⟩
    · intro k hk hne
      simp only [requestDiagnostic, h, Bool.not_true]
      simp only [Bool.false_eq_true, if_false]
      exact get_set_self norm ci s.pendingDiagnostics b.resource now k hk hne
    · exact le_min (le_max_right _ _) (by norm_num)

theorem requestDiagnostic_spec_witness :
    shouldValidate (fun s => some s) false ⟨true, true, true⟩ (⟨[]⟩ : TrackerState)
      ⟨"file:///x.ts", "/x.ts", "typescript", 10000⟩ = true ∧
    (requestDiagnostic (fun s => some s) false ⟨true, true, true⟩ (⟨[]⟩ : TrackerState)
        (⟨⟨[]⟩, []⟩ : DiagState) ⟨"file:///x.ts", "/x.ts", "typescript", 10000⟩ 42 =
      ({ pendingDiagnostics :=
           ResourceMap.set (fun s => some s) false (⟨[]⟩ : ResourceMap Nat) "file:///x.ts" 42,
         triggeredDelays := [] ++ [min (max ((10000 + 19) / 20) 300) 800] }, true) ∧
      (∀ k, toKey (fun s => some s) false "file:///x.ts" = some k → k ≠ "" →
        ResourceMap.get (fun s => some s) false
          (requestDiagnostic (fun s => some s) false ⟨true, true, true⟩ ⟨[]⟩
            ⟨⟨[]⟩, []⟩ ⟨"file:///x.ts", "/x.ts", "typescript", 10000⟩ 42).1.pendingDiagnostics
          "file:///x.ts" = some 42) ∧
      300 ≤ min (max ((10000 + 19) / 20) 300) 800 ∧
      min (max ((10000 + 19) / 20) 300) 800 ≤ 800) :=
  ⟨by decide,
    (requestDiagnostic_spec (fun s => some s) false ⟨true, true, true⟩ ⟨[]⟩ ⟨⟨[]⟩, []⟩
      ⟨"file:///x.ts", "/x.ts", "typescript", 10000⟩ 42).2 (by decide)⟩

/-- Once `_done` is set, no later event changes the request's state. -/
theorem getErrRun_done (evs : List GetErrEvent) (s : GetErrState) (h : s.done = true) :
    getErrRun s evs = s := by
  induction evs generalizing s with
  | nil => rfl
  | cons e es ih =>
    have hstep : getErrStep s e = s := by cases e <;> simp [getErrStep, h]
    show getErrRun (getErrStep s e) es = s
    rw [hstep]
    exact ih s h

/-- A live request whose trace settles exactly once runs `onDone` exactly
once more. -/
theorem getErrRun_settled_once (evs : List GetErrEvent) (s : GetErrState)
    (hd : s.done = false) (hc : countSettled evs = 1) :
    (getErrRun s evs).onDoneCount = s.onDoneCount + 1 := by
  induction evs generalizing s with
  | nil => simp [countSettled] at hc
  | cons e es ih =>
    cases e with
    | cancel =>
      exact ih s hd hc
    | settled =>
      show (getErrRun (getErrStep s .settled) es).onDoneCount = _
      have hstep : getErrStep s .settled = ⟨true, s.onDoneCount + 1⟩ := by
        simp [getErrStep, hd]
      rw [hstep, getErrRun_done es ⟨true, s.onDoneCount + 1⟩ rfl]

/-- C4: over a `GetErrRequest`'s lifetime, `onDone` is invoked exactly once:
the disabled-error-reporting and empty-filtered-file-list early paths
schedule it once and mark the request done, and an issued request's single
settlement (success, failure or cancellation) invokes it once behind the
`_done` guard; `cancel()` events may occur any number of times without
causing a second invocation. -/
theorem getErrRequest_onDone_exactly_once (apiGte440 hasSemanticCap : Bool)
    (capRes : Uri → Bool) (toTs : Uri → Option String) (files : List Uri)
    (evs : List GetErrEvent)
    (hsettle : (getErrInit apiGte440 hasSemanticCap capRes toTs files).2 = true →
      countSettled evs = 1)
    (_hnosettle : (getErrInit apiGte440 hasSemanticCap capRes toTs files).2 = false →
      countSettled evs = 0) :
    (getErrRun (getErrInit apiGte440 hasSemanticCap capRes toTs files).1 evs).onDoneCount
      = 1 := by
  have hcases : getErrInit apiGte440 hasSemanticCap capRes toTs files = (⟨true, 1⟩, false) ∨
      getErrInit apiGte440 hasSemanticCap capRes toTs files = (⟨false, 0⟩, true) := by
    unfold getErrInit
    split
    · left; rfl
    · split
      · left; rfl
      · right; rfl
  rcases hcases with h | h
  · rw [h]
    rw [getErrRun_done evs ⟨true, 1⟩ rfl]
  · rw [h] at hsettle ⊢
    have h1 := getErrRun_settled_once evs ⟨false, 0⟩ rfl (hsettle rfl)
    simpa using h1

theorem getErrRequest_onDone_exactly_once_witness :
    ((getErrInit true true (fun _ => true) (fun s => some s) ["file:///x.ts"]).2 = true →
      countSettled [.cancel, .settled, .cancel] = 1) ∧
    ((getErrInit true true (fun _ => true) (fun s => some s) ["file:///x.ts"]).2 = false →
      countSettled [.cancel, .settled, .cancel] = 0) ∧
    (getErrRun (getErrInit true true (fun _ => true) (fun s => some s) ["file:///x.ts"]).1
      [.cancel, .settled, .cancel]).onDoneCount = 1 :=
  ⟨by decide, by decide,
    getErrRequest_onDone_exactly_once true true (fun _ => true) (fun s => some s)
      ["file:///x.ts"] [.cancel, .settled, .cancel] (by decide) (by decide)⟩

/-- C6: in batching mode, `change` stores a pending `ChangeOperation` whose
`textChanges` is the reversal of the edits taken in editor event order, each
edit carrying 1-based line/column positions; for two ranged events the stored
list has the second event's edit first and the first event's edit second. -/
theorem syncChange_reverses_edits (norm : Uri → Option String) (ci : Bool)
    (s : SynchronizerState) (r : Uri) (fp : String) (events : List ContentChangeEvent)
    (k : String) (hk : toKey norm ci r = some k) (hne : k ≠ "")
    (habs : s.pending.mapHas k = false) (hev : events ≠ []) :
    (syncChange norm ci s r fp events).pending.get norm ci r
      = some (.Change { fileName := fp, textChanges := (changeEdits events).reverse }) ∧
    (syncChange norm ci s r fp events).sent = s.sent ∧
    ∀ e1 e2 : ContentChangeEvent, ∀ r1 r2 : LspRange,
      e1.range = some r1 → e2.range = some r2 →
      (changeEdits [e1, e2]).reverse =
        [{ newText := e2.text,
           start := ⟨r2.start.line + 1, r2.start.character + 1⟩,
           «end» := ⟨r2.«end».line + 1, r2.«end».character + 1⟩ },
         { newText := e1.text,
           start := ⟨r1.start.line + 1, r1.start.character + 1⟩,
           «end» := ⟨r1.«end».line + 1, r1.«end».character + 1⟩ }] := by
  have hemp : events.isEmpty = false := by
    cases events with
    | nil => exact absurd rfl hev
    | cons e es => rfl
  have hhas : s.pending.has norm ci r = false :=
    has_eq_false_of_not_mapHas norm ci s.pending r k hk habs
  have hup : updatePending norm ci s r
      (.Change { fileName := fp, textChanges := (changeEdits events).reverse })
      = ({ pending := ResourceMap.set norm ci s.pending r
             (.Change { fileName := fp, textChanges := (changeEdits events).reverse }),
           sent := s.sent }, true) := by
    simp [updatePending, hhas]
  refine ⟨?_, ?_, ?_⟩
  · simp only [syncChange, hemp, Bool.false_eq_true, if_false, hup]
    exact get_set_self norm ci s.pending r _ k hk hne
  · simp only [syncChange, hemp, Bool.false_eq_true, if_false, hup]
  · intro e1 e2 r1 r2 h1 h2
    simp [changeEdits, h1, h2, positionToLocation]

theorem syncChange_reverses_edits_witness :
    toKey (fun s => some s) false "file:///x.ts" = some "file:///x.ts" ∧
    "file:///x.ts" ≠ "" ∧
    (⟨[]⟩ : ResourceMap BufferOperation).mapHas "file:///x.ts" = false ∧
    ([⟨some ⟨⟨0, 0⟩, ⟨0, 1⟩⟩, "a"⟩, ⟨some ⟨⟨4, 0⟩, ⟨4, 1⟩⟩, "b"⟩] :
      List ContentChangeEvent) ≠ [] ∧
    ((syncChange (fun s => some s) false (⟨⟨[]⟩, []⟩ : SynchronizerState) "file:///x.ts"
        "/x.ts" [⟨some ⟨⟨0, 0⟩, ⟨0, 1⟩⟩, "a"⟩, ⟨some ⟨⟨4, 0⟩, ⟨4, 1⟩⟩, "b"⟩]).pending.get
        (fun s => some s) false "file:///x.ts"
      = some (.Change ⟨"/x.ts",
          (changeEdits [⟨some ⟨⟨0, 0⟩, ⟨0, 1⟩⟩, "a"⟩,
            ⟨some ⟨⟨4, 0⟩, ⟨4, 1⟩⟩, "b"⟩]).reverse⟩) ∧
    (changeEdits [(⟨some ⟨⟨0, 0⟩, ⟨0, 1⟩⟩, "a"⟩ : ContentChangeEvent),
        ⟨some ⟨⟨4, 0⟩, ⟨4, 1⟩⟩, "b"⟩]).reverse =
      [{ newText := "b", start := ⟨5, 1⟩, «end» := ⟨5, 2⟩ },
       { newText := "a", start := ⟨1, 1⟩, «end» := ⟨1, 2⟩ }]) :=
  ⟨by decide, by decide, by decide, by decide,
    (syncChange_reverses_edits (fun s => some s) false ⟨⟨[]⟩, []⟩ "file:///x.ts" "/x.ts"
      [⟨some ⟨⟨0, 0⟩, ⟨0, 1⟩⟩, "a"⟩, ⟨some ⟨⟨4, 0⟩, ⟨4, 1⟩⟩, "b"⟩] "file:///x.ts"
      (by decide) (by decide) (by decide) (by decide)).1,
    (syncChange_reverses_edits (fun s => some s) false ⟨⟨[]⟩, []⟩ "file:///x.ts" "/x.ts"
      [⟨some ⟨⟨0, 0⟩, ⟨0, 1⟩⟩, "a"⟩, ⟨some ⟨⟨4, 0⟩, ⟨4, 1⟩⟩, "b"⟩] "file:///x.ts"
      (by decide) (by decide) (by decide) (by decide)).2.2
      ⟨some ⟨⟨0, 0⟩, ⟨0, 1⟩⟩, "a"⟩ ⟨some ⟨⟨4, 0⟩, ⟨4, 1⟩⟩, "b"⟩
      ⟨⟨0, 0⟩, ⟨0, 1⟩⟩ ⟨⟨4, 0⟩, ⟨4, 1⟩⟩ rfl rfl⟩

/-- Any operation other than a Close meeting a pending Open takes the
flush-then-store branch of `updatePending`. -/
theorem updatePending_default (norm : Uri → Option String) (ci : Bool)
    (s : SynchronizerState) (r : Uri) (op : BufferOperation)
    (hdef : ∀ fp a, op = .Close fp → s.pending.get norm ci r ≠ some (.Open a)) :
    updatePending norm ci s r op =
      ({ (if s.pending.has norm ci r then flush s else s) with
         pending := (if s.pending.has norm ci r then flush s
           else s).pending.set norm ci r op }, true) := by
  cases op with
  | Open a => rfl
  | Change c => rfl
  | Close fp =>
    cases hget : s.pending.get norm ci r with
    | none =>
      unfold updatePending
      rw [hget]
    | some op' =>
      cases op' with
      | Open a => exact absurd hget (hdef fp a rfl)
      | Close c =>
        unfold updatePending
        rw [hget]
      | Change c =>
        unfold updatePending
        rw [hget]

/-- C2: in batching mode, a Close arriving while an Open is pending for the
same resource deletes the pending entry and returns false, with the sent log
untouched; in particular `open(r)` directly followed by `close(r)` restores
the synchronizer's state exactly, so no back-end command is ever produced
for `r`.  Any other combination of an existing pending operation and a new
operation flushes the entire pending batch first and then stores the new
operation, returning true. -/
theorem updatePending_coalescing (norm : Uri → Option String) (ci : Bool)
    (s : SynchronizerState) (r : Uri) (k : String)
    (hk : toKey norm ci r = some k) (hne : k ≠ "") :
    (∀ a fp, s.pending.get norm ci r = some (.Open a) →
      updatePending norm ci s r (.Close fp) =
        ({ pending := s.pending.delete norm ci r, sent := s.sent }, false)) ∧
    (s.pending.mapHas k = false →
      ∀ a fp, syncClose norm ci (syncOpen norm ci s r a) r fp = (s, false)) ∧
    (∀ op, s.pending.has norm ci r = true →
      (∀ fp a, op = .Close fp → s.pending.get norm ci r ≠ some (.Open a)) →
      updatePending norm ci s r op =
        ({ pending := ⟨[(k, ⟨r, op⟩)]⟩,
           sent := s.sent ++ [flushPartition s.pending.values] }, true)) := by
  refine ⟨?_, ?_, ?_⟩
  · intro a fp hget
    unfold updatePending
    rw [hget]
  · intro habs a fp
    have hhasF : s.pending.has norm ci r = false :=
      has_eq_false_of_not_mapHas norm ci s.pending r k hk habs
    have hopen : syncOpen norm ci s r a =
        { pending := ResourceMap.set norm ci s.pending r (.Open a), sent := s.sent } := by
      unfold syncOpen
      rw [updatePending_default norm ci s r (.Open a) (by intro fp' a' h; cases h)]
      rw [if_neg (by simp [hhasF])]
    have hget1 : ResourceMap.get norm ci
        (ResourceMap.set norm ci s.pending r (.Open a)) r = some (.Open a) :=
      get_set_self norm ci s.pending r (.Open a) k hk hne
    have happ : (ResourceMap.set norm ci s.pending r (.Open a)) =
        (⟨s.pending._map ++ [(k, ⟨r, .Open a⟩)]⟩ : ResourceMap BufferOperation) := by
      have := set_append_of_not_has norm ci s.pending r (.Open a) k hk hne habs
      cases hset : ResourceMap.set norm ci s.pending r (.Open a) with
      | mk l => rw [hset] at this; simpa using this
    unfold syncClose
    rw [hopen]
    unfold updatePending
    show (match (BufferOperation.Close fp),
        ResourceMap.get norm ci (ResourceMap.set norm ci s.pending r (.Open a)) r with
      | .Close _, some (.Open _) => _
      | _, _ => _) = (s, false)
    rw [hget1]
    show ((⟨ResourceMap.delete norm ci
        (ResourceMap.set norm ci s.pending r (.Open a)) r, s.sent⟩ : SynchronizerState),
      false) = (s, false)
    rw [happ, delete_append_self norm ci s.pending r r (.Open a) k hk hne habs]
  · intro op hhas hno
    have hmh : s.pending.mapHas k = true := by
      unfold ResourceMap.has at hhas
      rw [hk] at hhas
      exact (by simpa using hhas : ¬k = "" ∧ s.pending.mapHas k = true).2
    have hsz : s.pending.size > 0 := by
      unfold ResourceMap.mapHas at hmh
      rcases List.any_eq_true.mp hmh with ⟨p, hp, _⟩
      exact List.length_pos.mpr (List.ne_nil_of_mem hp)
    have hflush : flush s =
        ⟨⟨[]⟩, s.sent ++ [flushPartition s.pending.values]⟩ := by
      unfold flush
      rw [if_pos hsz]
      rfl
    have hsetE : ResourceMap.set norm ci (⟨[]⟩ : ResourceMap BufferOperation) r op
        = ⟨[(k, ⟨r, op⟩)]⟩ := by
      simp only [ResourceMap.set, hk, if_neg hne]
      rw [if_neg (by simp [ResourceMap.mapHas])]
      simp
    rw [updatePending_default norm ci s r op hno, if_pos hhas, hflush]
    show ((⟨ResourceMap.set norm ci (⟨[]⟩ : ResourceMap BufferOperation) r op,
        s.sent ++ [flushPartition s.pending.values]⟩ : SynchronizerState), true) = _
    rw [hsetE]

theorem updatePending_coalescing_witness :
    toKey (fun s => some s) false "file:///x.ts" = some "file:///x.ts" ∧
    "file:///x.ts" ≠ "" ∧
    ((⟨⟨[]⟩, []⟩ : SynchronizerState).pending.mapHas "file:///x.ts" = false →
      ∀ a fp, syncClose (fun s => some s) false
        (syncOpen (fun s => some s) false (⟨⟨[]⟩, []⟩ : SynchronizerState) "file:///x.ts" a)
        "file:///x.ts" fp = ((⟨⟨[]⟩, []⟩ : SynchronizerState), false)) ∧
    syncClose (fun s => some s) false
      (syncOpen (fun s => some s) false (⟨⟨[]⟩, []⟩ : SynchronizerState) "file:///x.ts"
        ⟨"/x.ts", "text", none, none⟩)
      "file:///x.ts" "/x.ts" = ((⟨⟨[]⟩, []⟩ : SynchronizerState), false) ∧
    updatePending (fun s => some s) false
      (⟨⟨[("file:///x.ts", ⟨"file:///x.ts", .Close "/x.ts"⟩)]⟩, []⟩ : SynchronizerState)
      "file:///x.ts" (.Close "/x.ts") =
      (({ pending := ⟨[("file:///x.ts", ⟨"file:///x.ts", .Close "/x.ts"⟩)]⟩,
          sent := [] ++ [flushPartition
            (⟨⟨[("file:///x.ts", ⟨"file:///x.ts", .Close "/x.ts"⟩)]⟩, []⟩
              : SynchronizerState).pending.values] } : SynchronizerState), true) :=
  ⟨by decide, by decide,
    (updatePending_coalescing (fun s => some s) false ⟨⟨[]⟩, []⟩ "file:///x.ts"
      "file:///x.ts" (by decide) (by decide)).2.1,
    (updatePending_coalescing (fun s => some s) false ⟨⟨[]⟩, []⟩ "file:///x.ts"
      "file:///x.ts" (by decide) (by decide)).2.1 (by decide)
      ⟨"/x.ts", "text", none, none⟩ "/x.ts",
    (updatePending_coalescing (fun s => some s) false
      ⟨⟨[("file:///x.ts", ⟨"file:///x.ts", .Close "/x.ts"⟩)]⟩, []⟩ "file:///x.ts"
      "file:///x.ts" (by decide) (by decide)).2.2 (.Close "/x.ts") (by decide)
      (fun fp a h1 h2 => by
        rw [show ResourceMap.get (fun s => some s) false
            (⟨[("file:///x.ts", ⟨"file:///x.ts", BufferOperation.Close "/x.ts"⟩)]⟩
              : ResourceMap BufferOperation) "file:///x.ts"
            = some (BufferOperation.Close "/x.ts") from rfl] at h2
        simp at h2)⟩

/-- Insertion preserves the multiset of entries. -/
theorem insertByValue_perm (e : RMEntry Nat) (l : List (RMEntry Nat)) :
    List.Perm (insertByValue e l) (e :: l) := by
  induction l with
  | nil => exact List.Perm.refl _
  | cons f fs ih =>
    unfold insertByValue
    by_cases h : f.value ≤ e.value
    · rw [if_pos h]
      exact (ih.cons f).trans (List.Perm.swap e f fs)
    · rw [if_neg h]

/-- Insertion into a value-sorted list keeps it sorted. -/
theorem insertByValue_sorted (e : RMEntry Nat) (l : List (RMEntry Nat))
    (h : l.Pairwise (fun a b => a.value ≤ b.value)) :
    (insertByValue e l).Pairwise (fun a b => a.value ≤ b.value) := by
  induction l with
  | nil => simp [insertByValue]
  | cons f fs ih =>
    rcases List.pairwise_cons.mp h with ⟨hf, hfs⟩
    unfold insertByValue
    by_cases hle : f.value ≤ e.value
    · rw [if_pos hle]
      refine List.pairwise_cons.mpr ⟨?_, ih hfs⟩
      intro x hx
      rcases List.mem_cons.mp ((insertByValue_perm e fs).mem_iff.mp hx) with rfl | hx'
      · exact hle
      · exact hf x hx'
    · rw [if_neg hle]
      have hef : e.value ≤ f.value := (not_le.mp hle).le
      refine List.pairwise_cons.mpr ⟨?_, h⟩
      intro x hx
      rcases List.mem_cons.mp hx with rfl | hx'
      · exact hef
      · exact le_trans hef (hf x hx')

/-- Elements of other timestamps are unaffected by an insertion. -/
theorem insertByValue_filter_ne (e : RMEntry Nat) (l : List (RMEntry Nat)) (t : Nat)
    (he : (e.value == t) = false) :
    (insertByValue e l).filter (fun f => f.value == t)
      = l.filter (fun f => f.value == t) := by
  induction l with
  | nil => simp [insertByValue, he]
  | cons f fs ih =>
    unfold insertByValue
    by_cases hle : f.value ≤ e.value
    · rw [if_pos hle]
      simp [List.filter_cons, ih]
    · rw [if_neg hle]
      simp [List.filter_cons, he]

/-- Stability: an entry inserted into a sorted list goes after every earlier
entry with the same timestamp. -/
theorem insertByValue_filter_eq (e : RMEntry Nat) (l : List (RMEntry Nat)) (t : Nat)
    (he : (e.value == t) = true)
    (hs : l.Pairwise (fun a b => a.value ≤ b.value)) :
    (insertByValue e l).filter (fun f => f.value == t)
      = l.filter (fun f => f.value == t) ++ [e] := by
  induction l with
  | nil => simp [insertByValue, he]
  | cons f fs ih =>
    rcases List.pairwise_cons.mp hs with ⟨hf, hfs⟩
    unfold insertByValue
    by_cases hle : f.value ≤ e.value
    · rw [if_pos hle]
      simp only [List.filter_cons, ih hfs]
      by_cases hft : (f.value == t) = true
      · simp [hft]
      · simp [hft]
    · rw [if_neg hle]
      have het : e.value = t := by simpa using he
      have hmt : ∀ x ∈ f :: fs, (x.value == t) = false := by
        intro x hx
        have hfx : f.value ≤ x.value := by
          rcases List.mem_cons.mp hx with rfl | hx'
          · exact le_refl _
          · exact hf x hx'
        have hxt : x.value ≠ t := by
          have := not_le.mp hle
          omega
        simp [hxt]
      have hnil : List.filter (fun f => f.value == t) (f :: fs) = [] :=
        List.filter_eq_nil_iff.mpr (by simpa using hmt)
      simp [List.filter_cons, he, hnil]

/-- Combined foldl invariant for the stable sort: sortedness, permutation and
timestamp-class stability. -/
theorem sortByValue_foldl_inv (l : List (RMEntry Nat)) (acc : List (RMEntry Nat))
    (hs : acc.Pairwise (fun a b => a.value ≤ b.value)) :
    (l.foldl (fun a e => insertByValue e a) acc).Pairwise (fun a b => a.value ≤ b.value) ∧
    List.Perm (l.foldl (fun a e => insertByValue e a) acc) (acc ++ l) ∧
    ∀ t, (l.foldl (fun a e => insertByValue e a) acc).filter (fun f => f.value == t)
      = acc.filter (fun f => f.value == t) ++ l.filter (fun f => f.value == t) := by
  induction l generalizing acc with
  | nil => exact ⟨hs, by simp, by simp⟩
  | cons e es ih =>
    have hs' := insertByValue_sorted e acc hs
    obtain ⟨h1, h2, h3⟩ := ih (insertByValue e acc) hs'
    refine ⟨h1, ?_, ?_⟩
    · have p1 : List.Perm (insertByValue e acc ++ es) ((e :: acc) ++ es) :=
        (insertByValue_perm e acc).append_right es
      have p2 : List.Perm ((e :: acc) ++ es) (acc ++ e :: es) := List.perm_middle.symm
      exact h2.trans (p1.trans p2)
    · intro t
      show (es.foldl (fun a e => insertByValue e a) (insertByValue e acc)).filter _ = _
      rw [h3 t]
      by_cases he : (e.value == t) = true
      · rw [insertByValue_filter_eq e acc t he hs]
        simp [List.filter_cons, he]
      · have he' : (e.value == t) = false := by simpa using he
        rw [insertByValue_filter_ne e acc t he']
        simp [List.filter_cons, he']

/-- `sortByValue` sorts by non-decreasing timestamp, permutes the input, and
preserves the relative order within each timestamp class (stability). -/
theorem sortByValue_spec (l : List (RMEntry Nat)) :
    (sortByValue l).Pairwise (fun a b => a.value ≤ b.value) ∧
    List.Perm (sortByValue l) l ∧
    ∀ t, (sortByValue l).filter (fun f => f.value == t)
      = l.filter (fun f => f.value == t) := by
  obtain ⟨h1, h2, h3⟩ := sortByValue_foldl_inv l [] (List.Pairwise.nil)
  exact ⟨h1, by simpa using h2, fun t => by simpa using h3 t⟩

/-- Folding `set` over resources with fresh, truthy, pairwise-distinct keys
appends the resources in order. -/
theorem foldl_set_resources (norm : Uri → Option String) (ci : Bool) (rs : List Uri)
    (acc : ResourceMap Unit)
    (h1 : ∀ r ∈ rs, ∃ k, toKey norm ci r = some k ∧ k ≠ "" ∧ acc.mapHas k = false)
    (h2 : (rs.map (toKey norm ci)).Nodup) :
    ((rs.foldl (fun a r => ResourceMap.set norm ci a r ()) acc).entries).map RMEntry.resource
      = (acc.entries).map RMEntry.resource ++ rs := by
  induction rs generalizing acc with
  | nil => simp
  | cons r rs' ih =>
    obtain ⟨k, hk, hne, habs⟩ := h1 r (by simp)
    have hset := set_append_of_not_has norm ci acc r () k hk hne habs
    have hent : (ResourceMap.set norm ci acc r ()).entries
        = acc.entries ++ [⟨r, ()⟩] := by
      unfold ResourceMap.entries
      rw [hset]
      simp
    have h1' : ∀ r' ∈ rs', ∃ k', toKey norm ci r' = some k' ∧ k' ≠ "" ∧
        (ResourceMap.set norm ci acc r ()).mapHas k' = false := by
      intro r' hr'
      obtain ⟨k', hk', hne', habs'⟩ := h1 r' (by simp [hr'])
      refine ⟨k', hk', hne', ?_⟩
      have hkk' : k ≠ k' := by
        intro hcontra
        have : toKey norm ci r ≠ toKey norm ci r' := by
          have hnotmem : toKey norm ci r ∉ rs'.map (toKey norm ci) :=
            (List.nodup_cons.mp h2).1
          intro heq
          exact hnotmem (heq ▸ List.mem_map_of_mem (toKey norm ci) hr')
        rw [hk, hk', hcontra] at this
        exact this rfl
      unfold ResourceMap.mapHas
      rw [hset, List.any_append]
      have h1a : acc._map.any (fun p => p.1 == k') = false := habs'
      have h2a : ([(k, (⟨r, ()⟩ : RMEntry Unit))].any (fun p => p.1 == k')) = false := by
        simp [hkk']
      rw [h1a, h2a]
      rfl
    have ih' := ih (ResourceMap.set norm ci acc r ()) h1' (List.nodup_cons.mp h2).2
    show ((rs'.foldl (fun a r => ResourceMap.set norm ci a r ())
      (ResourceMap.set norm ci acc r ())).entries).map RMEntry.resource = _
    rw [ih', hent]
    simp

/-- C5: `getOrderedFileSet` on a well-formed pending-diagnostics map yields a
set-valued map whose iteration order is the stable sort of the entries by
ascending stored timestamp: the resources come out in non-decreasing
timestamp order, no entry is lost or duplicated, and entries with equal
timestamps keep their insertion order. -/
theorem getOrderedFileSet_ordered (norm : Uri → Option String) (ci : Bool)
    (m : ResourceMap Nat) (h : m.WF norm ci) :
    ((getOrderedFileSet norm ci m).entries).map RMEntry.resource
      = (sortByValue m.entries).map RMEntry.resource ∧
    (sortByValue m.entries).Pairwise (fun a b => a.value ≤ b.value) ∧
    List.Perm (sortByValue m.entries) m.entries ∧
    ∀ t, (sortByValue m.entries).filter (fun e => e.value == t)
      = m.entries.filter (fun e => e.value == t) := by
  obtain ⟨hsorted, hperm, hstable⟩ := sortByValue_spec m.entries
  refine ⟨?_, hsorted, hperm, hstable⟩
  have h1 : ∀ r ∈ (sortByValue m.entries).map RMEntry.resource,
      ∃ k, toKey norm ci r = some k ∧ k ≠ "" ∧
        (⟨[]⟩ : ResourceMap Unit).mapHas k = false := by
    intro r hr
    obtain ⟨e, he, rfl⟩ := List.mem_map.mp hr
    have he' : e ∈ m.entries := hperm.mem_iff.mp he
    obtain ⟨p, hp, rfl⟩ := List.mem_map.mp he'
    obtain ⟨hk, hne⟩ := h.1 p hp
    exact ⟨p.1, hk, hne, rfl⟩
  have h2 : (((sortByValue m.entries).map RMEntry.resource).map (toKey norm ci)).Nodup := by
    rw [List.map_map]
    have hmapperm : List.Perm ((sortByValue m.entries).map (toKey norm ci ∘ RMEntry.resource))
        (m.entries.map (toKey norm ci ∘ RMEntry.resource)) := hperm.map _
    refine hmapperm.nodup_iff.mpr ?_
    have hrw : m.entries.map (toKey norm ci ∘ RMEntry.resource)
        = (m._map.map Prod.fst).map (fun k => some k) := by
      unfold ResourceMap.entries
      rw [List.map_map, List.map_map]
      refine List.map_congr_left ?_
      intro p hp
      exact (h.1 p hp).1
    rw [hrw]
    exact h.2.map (fun a b hab => Option.some.inj hab)
  have hmain := foldl_set_resources norm ci ((sortByValue m.entries).map RMEntry.resource)
    ⟨[]⟩ h1 h2
  unfold getOrderedFileSet
  rw [hmain]
  simp [ResourceMap.entries]

theorem getOrderedFileSet_ordered_witness :
    (⟨[("file:///a.ts", ⟨"file:///a.ts", 100⟩), ("file:///b.ts", ⟨"file:///b.ts", 200⟩),
        ("file:///c.ts", ⟨"file:///c.ts", 150⟩)]⟩ : ResourceMap Nat).WF
      (fun s => some s) false ∧
    ((getOrderedFileSet (fun s => some s) false
        (⟨[("file:///a.ts", ⟨"file:///a.ts", 100⟩), ("file:///b.ts", ⟨"file:///b.ts", 200⟩),
          ("file:///c.ts", ⟨"file:///c.ts", 150⟩)]⟩ : ResourceMap Nat)).entries).map
      RMEntry.resource = ["file:///a.ts", "file:///c.ts", "file:///b.ts"] ∧
    ((getOrderedFileSet (fun s => some s) false
        (⟨[("file:///a.ts", ⟨"file:///a.ts", 100⟩), ("file:///b.ts", ⟨"file:///b.ts", 200⟩),
          ("file:///c.ts", ⟨"file:///c.ts", 150⟩)]⟩ : ResourceMap Nat)).entries).map
      RMEntry.resource =
      (sortByValue (⟨[("file:///a.ts", ⟨"file:///a.ts", 100⟩),
        ("file:///b.ts", ⟨"file:///b.ts", 200⟩),
        ("file:///c.ts", ⟨"file:///c.ts", 150⟩)]⟩ : ResourceMap Nat).entries).map
        RMEntry.resource :=
  ⟨by decide, by decide,
    (getOrderedFileSet_ordered (fun s => some s) false
      ⟨[("file:///a.ts", ⟨"file:///a.ts", 100⟩), ("file:///b.ts", ⟨"file:///b.ts", 200⟩),
        ("file:///c.ts", ⟨"file:///c.ts", 150⟩)]⟩ (by decide)).1⟩

/-- `mapHas` is equivalent to `mapGet` succeeding. -/
theorem mapHas_iff_mapGet {T : Type} (m : ResourceMap T) (k : String) :
    m.mapHas k = true ↔ ∃ en, m.mapGet k = some en := by
  unfold ResourceMap.mapHas ResourceMap.mapGet
  rw [List.any_eq_true]
  constructor
  · rintro ⟨p, hp, hpk⟩
    have hsome : ((m._map.find? (fun p => p.1 == k)).isSome) = true :=
      List.find?_isSome.mpr ⟨p, hp, hpk⟩
    rcases Option.isSome_iff_exists.mp hsome with ⟨q, hq⟩
    exact ⟨q.2, by rw [hq]; rfl⟩
  · rintro ⟨en, hen⟩
    rcases Option.map_eq_some'.mp hen with ⟨q, hq, rfl⟩
    refine ⟨q, List.mem_of_find?_eq_some hq, ?_⟩
    have hpq := List.find?_some hq
    simpa using hpq

/-- A successful `mapGet` returns one of the stored entries. -/
theorem mapGet_mem_entries {T : Type} (m : ResourceMap T) (k : String) (en : RMEntry T)
    (h : m.mapGet k = some en) : en ∈ m.entries := by
  unfold ResourceMap.mapGet at h
  rcases Option.map_eq_some'.mp h with ⟨q, hq, rfl⟩
  exact List.mem_map_of_mem Prod.snd (List.mem_of_find?_eq_some hq)

/-- `get` through a truthy key is `mapGet` projected to the value. -/
theorem get_eq_mapGet {T : Type} (norm : Uri → Option String) (ci : Bool)
    (m : ResourceMap T) (r : Uri) (k : String)
    (hk : toKey norm ci r = some k) (hne : k ≠ "") :
    ResourceMap.get norm ci m r = (m.mapGet k).map RMEntry.value := by
  simp only [ResourceMap.get, hk, if_neg hne]

/-- `get` fails on an absent key. -/
theorem get_eq_none_of_not_mapHas {T : Type} (norm : Uri → Option String) (ci : Bool)
    (m : ResourceMap T) (r : Uri) (k : String)
    (hk : toKey norm ci r = some k) (habs : m.mapHas k = false) :
    ResourceMap.get norm ci m r = none := by
  by_cases hne : k = ""
  · subst hne
    simp [ResourceMap.get, hk]
  · rw [get_eq_mapGet norm ci m r k hk hne, mapGet_eq_none habs]
    rfl

/-- A failing `get` through a truthy key means the key is absent. -/
theorem mapHas_false_of_get_none {T : Type} (norm : Uri → Option String) (ci : Bool)
    (m : ResourceMap T) (r : Uri) (k : String)
    (hk : toKey norm ci r = some k) (hne : k ≠ "")
    (h : ResourceMap.get norm ci m r = none) : m.mapHas k = false := by
  by_contra hc
  have hhas : m.mapHas k = true := by simpa using hc
  rcases (mapHas_iff_mapGet m k).mp hhas with ⟨en, hen⟩
  rw [get_eq_mapGet norm ci m r k hk hne, hen] at h
  simp at h

/-- Two maps with the same backing list are equal. -/
theorem ResourceMap.ext' {T : Type} {m1 m2 : ResourceMap T} (h : m1._map = m2._map) :
    m1 = m2 := by
  cases m1
  cases m2
  cases h
  rfl

/-- Case analysis of `set`: no-op on a falsy key, in-place update on a
present key, append on an absent key. -/
theorem set_eq_cases {T : Type} (norm : Uri → Option String) (ci : Bool)
    (m : ResourceMap T) (r : Uri) (v : T) :
    ((toKey norm ci r = none ∨ toKey norm ci r = some "") ∧
      ResourceMap.set norm ci m r v = m) ∨
    (∃ k, toKey norm ci r = some k ∧ k ≠ "" ∧ m.mapHas k = true ∧
      ResourceMap.set norm ci m r v
        = ⟨m._map.map (fun p => if p.1 == k then (p.1, ⟨p.2.resource, v⟩) else p)⟩) ∨
    (∃ k, toKey norm ci r = some k ∧ k ≠ "" ∧ m.mapHas k = false ∧
      ResourceMap.set norm ci m r v = ⟨m._map ++ [(k, ⟨r, v⟩)]⟩) := by
  cases htk : toKey norm ci r with
  | none => exact Or.inl ⟨Or.inl rfl, by simp [ResourceMap.set, htk]⟩
  | some k =>
    by_cases hk : k = ""
    · subst hk
      exact Or.inl ⟨Or.inr rfl, by simp [ResourceMap.set, htk]⟩
    · by_cases hhas : m.mapHas k = true
      · refine Or.inr (Or.inl ⟨k, rfl, hk, hhas, ?_⟩)
        simp only [ResourceMap.set, htk, if_neg hk, if_pos hhas]
      · have habs : m.mapHas k = false := by simpa using hhas
        refine Or.inr (Or.inr ⟨k, rfl, hk, habs, ?_⟩)
        exact ResourceMap.ext' (set_append_of_not_has norm ci m r v k htk hk habs)

/-- Case analysis of `delete`: no-op on a falsy key, key filter otherwise. -/
theorem delete_eq_cases {T : Type} (norm : Uri → Option String) (ci : Bool)
    (m : ResourceMap T) (r : Uri) :
    ((toKey norm ci r = none ∨ toKey norm ci r = some "") ∧
      ResourceMap.delete norm ci m r = m) ∨
    (∃ k, toKey norm ci r = some k ∧ k ≠ "" ∧
      ResourceMap.delete norm ci m r = ⟨m._map.filter (fun p => p.1 != k)⟩) := by
  cases htk : toKey norm ci r with
  | none => exact Or.inl ⟨Or.inl rfl, by simp [ResourceMap.delete, htk]⟩
  | some k =>
    by_cases hk : k = ""
    · subst hk
      exact Or.inl ⟨Or.inr rfl, by simp [ResourceMap.delete, htk]⟩
    · refine Or.inr ⟨k, rfl, hk, ?_⟩
      simp only [ResourceMap.delete, htk, if_neg hk]

/-- A successful `get` exhibits a truthy key, a stored entry and its value. -/
theorem get_some_elim {T : Type} (norm : Uri → Option String) (ci : Bool)
    (m : ResourceMap T) (r : Uri) (v : T)
    (h : ResourceMap.get norm ci m r = some v) :
    ∃ k, toKey norm ci r = some k ∧ k ≠ "" ∧ m.mapHas k = true ∧
      ∃ en, m.mapGet k = some en ∧ en.value = v := by
  cases htk : toKey norm ci r with
  | none => simp [ResourceMap.get, htk] at h
  | some k =>
    by_cases hne : k = ""
    · subst hne
      simp [ResourceMap.get, htk] at h
    · rw [get_eq_mapGet norm ci m r k htk hne] at h
      rcases Option.map_eq_some'.mp h with ⟨en, hen, hval⟩
      exact ⟨k, rfl, hne, (mapHas_iff_mapGet m k).mpr ⟨en, hen⟩, en, hen, hval⟩

/-- `set` preserves a property that holds of all stored values and of the new
value. -/
theorem set_value_pred {T : Type} (P : T → Prop) (norm : Uri → Option String) (ci : Bool)
    (m : ResourceMap T) (r : Uri) (v : T)
    (h : ∀ e ∈ m.entries, P e.value) (hv : P v) :
    ∀ e ∈ (ResourceMap.set norm ci m r v).entries, P e.value := by
  intro e he
  rcases set_eq_cases norm ci m r v with ⟨_, heq⟩ | ⟨k, _, _, _, heq⟩ | ⟨k, _, _, _, heq⟩
  · rw [heq] at he
    exact h e he
  · rw [heq] at he
    unfold ResourceMap.entries at he
    rcases List.mem_map.mp he with ⟨p, hp, rfl⟩
    rcases List.mem_map.mp hp with ⟨q, hq, rfl⟩
    by_cases hqf : (q.1 == k) = true
    · rw [if_pos hqf]
      exact hv
    · rw [if_neg hqf]
      exact h q.2 (List.mem_map_of_mem Prod.snd hq)
  · rw [heq] at he
    unfold ResourceMap.entries at he
    rcases List.mem_map.mp he with ⟨p, hp, rfl⟩
    rcases List.mem_append.mp hp with hp1 | hp2
    · exact h p.2 (List.mem_map_of_mem Prod.snd hp1)
    · rw [List.mem_singleton] at hp2
      subst hp2
      exact hv

/-- `delete` preserves a property that holds of all stored values. -/
theorem delete_value_pred {T : Type} (P : T → Prop) (norm : Uri → Option String) (ci : Bool)
    (m : ResourceMap T) (r : Uri) (h : ∀ e ∈ m.entries, P e.value) :
    ∀ e ∈ (ResourceMap.delete norm ci m r).entries, P e.value := by
  intro e he
  rcases delete_eq_cases norm ci m r with ⟨_, heq⟩ | ⟨k, _, _, heq⟩
  · rw [heq] at he
    exact h e he
  · rw [heq] at he
    unfold ResourceMap.entries at he
    rcases List.mem_map.mp he with ⟨p, hp, rfl⟩
    exact h p.2 (List.mem_map_of_mem Prod.snd (List.mem_of_mem_filter hp))

/-- `set` preserves well-formedness. -/
theorem WF_set {T : Type} (norm : Uri → Option String) (ci : Bool) (m : ResourceMap T)
    (r : Uri) (v : T) (h : m.WF norm ci) : (ResourceMap.set norm ci m r v).WF norm ci := by
  rcases set_eq_cases norm ci m r v with ⟨_, heq⟩ | ⟨k, htk, hk, hhas, heq⟩ |
    ⟨k, htk, hk, habs, heq⟩
  · rw [heq]
    exact h
  · rw [heq]
    constructor
    · intro p hp
      rcases List.mem_map.mp hp with ⟨q, hq, rfl⟩
      by_cases hqf : (q.1 == k) = true
      · rw [if_pos hqf]
        exact ⟨(h.1 q hq).1, (h.1 q hq).2⟩
      · rw [if_neg hqf]
        exact h.1 q hq
    · have hkeys : ((m._map.map fun p =>
          if (p.1 == k) = true then (p.1, (⟨p.2.resource, v⟩ : RMEntry T)) else p).map
          Prod.fst) = m._map.map Prod.fst := by
        rw [List.map_map]
        refine List.map_congr_left ?_
        intro q hq
        show (if (q.1 == k) = true then (q.1, (⟨q.2.resource, v⟩ : RMEntry T)) else q).1 = q.1
        split <;> rfl
      show ((m._map.map fun p =>
        if (p.1 == k) = true then (p.1, (⟨p.2.resource, v⟩ : RMEntry T)) else p).map
        Prod.fst).Nodup
      rw [hkeys]
      exact h.2
  · rw [heq]
    constructor
    · intro p hp
      rcases List.mem_append.mp hp with hp1 | hp2
      · exact h.1 p hp1
      · rw [List.mem_singleton] at hp2
        subst hp2
        exact ⟨htk, hk⟩
    · show ((m._map ++ [(k, (⟨r, v⟩ : RMEntry T))]).map Prod.fst).Nodup
      rw [List.map_append]
      refine List.Nodup.append h.2 (List.nodup_singleton k) ?_
      intro a ha hb
      simp only [List.map_cons, List.map_nil, List.mem_singleton] at hb
      subst hb
      rcases List.mem_map.mp ha with ⟨q, hq, hfst⟩
      have h5 := mapHas_false_elim habs q hq
      rw [hfst] at h5
      simp at h5

/-- `delete` preserves well-formedness. -/
theorem WF_delete {T : Type} (norm : Uri → Option String) (ci : Bool) (m : ResourceMap T)
    (r : Uri) (h : m.WF norm ci) : (ResourceMap.delete norm ci m r).WF norm ci := by
  rcases delete_eq_cases norm ci m r with ⟨_, heq⟩ | ⟨k, htk, hk, heq⟩
  · rw [heq]
    exact h
  · rw [heq]
    constructor
    · intro p hp
      exact h.1 p (List.mem_of_mem_filter hp)
    · show ((m._map.filter fun p => p.1 != k).map Prod.fst).Nodup
      exact List.Nodup.sublist (List.Sublist.map Prod.fst (List.filter_sublist _)) h.2

/-- `set` never removes keys. -/
theorem mapHas_set_mono {T : Type} (norm : Uri → Option String) (ci : Bool)
    (m : ResourceMap T) (r : Uri) (v : T) (k' : String)
    (h : m.mapHas k' = true) : (ResourceMap.set norm ci m r v).mapHas k' = true := by
  rcases set_eq_cases norm ci m r v with ⟨_, heq⟩ | ⟨k, htk, hk, hhas, heq⟩ |
    ⟨k, htk, hk, habs, heq⟩
  · rw [heq]
    exact h
  · rw [heq]
    unfold ResourceMap.mapHas at h ⊢
    rcases List.any_eq_true.mp h with ⟨q, hq, hqk⟩
    refine List.any_eq_true.mpr
      ⟨(if (q.1 == k) = true then (q.1, ⟨q.2.resource, v⟩) else q),
        List.mem_map_of_mem _ hq, ?_⟩
    by_cases hqf : (q.1 == k) = true
    · rw [if_pos hqf]
      exact hqk
    · rw [if_neg hqf]
      exact hqk
  · rw [heq]
    unfold ResourceMap.mapHas at h ⊢
    rcases List.any_eq_true.mp h with ⟨q, hq, hqk⟩
    exact List.any_eq_true.mpr ⟨q, List.mem_append_left _ hq, hqk⟩

/-- A key present after `set` was present before or is the key being set. -/
theorem mapHas_set_imp {T : Type} (norm : Uri → Option String) (ci : Bool)
    (m : ResourceMap T) (r : Uri) (v : T) (k' : String)
    (h : (ResourceMap.set norm ci m r v).mapHas k' = true) :
    m.mapHas k' = true ∨ toKey norm ci r = some k' := by
  rcases set_eq_cases norm ci m r v with ⟨_, heq⟩ | ⟨k, htk, hk, hhas, heq⟩ |
    ⟨k, htk, hk, habs, heq⟩
  · rw [heq] at h
    exact Or.inl h
  · rw [heq] at h
    left
    unfold ResourceMap.mapHas at h ⊢
    rcases List.any_eq_true.mp h with ⟨q', hq', hk'⟩
    rcases List.mem_map.mp hq' with ⟨q, hq, rfl⟩
    refine List.any_eq_true.mpr ⟨q, hq, ?_⟩
    by_cases hqf : (q.1 == k) = true
    · rw [if_pos hqf] at hk'
      exact hk'
    · rw [if_neg hqf] at hk'
      exact hk'
  · rw [heq] at h
    unfold ResourceMap.mapHas at h
    rcases List.any_eq_true.mp h with ⟨q, hq, hk'⟩
    rcases List.mem_append.mp hq with hq1 | hq2
    · exact Or.inl (List.any_eq_true.mpr ⟨q, hq1, hk'⟩)
    · rw [List.mem_singleton] at hq2
      subst hq2
      have hfile : k = k' := by simpa using hk'
      rw [htk, hfile]
      exact Or.inr rfl

/-- A key present after `delete` was present before. -/
theorem mapHas_delete_imp {T : Type} (norm : Uri → Option String) (ci : Bool)
    (m : ResourceMap T) (r : Uri) (k' : String)
    (h : (ResourceMap.delete norm ci m r).mapHas k' = true) : m.mapHas k' = true := by
  rcases delete_eq_cases norm ci m r with ⟨_, heq⟩ | ⟨k, htk, hk, heq⟩
  · rw [heq] at h
    exact h
  · rw [heq] at h
    unfold ResourceMap.mapHas at h ⊢
    rcases List.any_eq_true.mp h with ⟨q, hq, hk'⟩
    exact List.any_eq_true.mpr ⟨q, List.mem_of_mem_filter hq, hk'⟩

/-- `delete` removes its own key. -/
theorem mapHas_delete_self {T : Type} (norm : Uri → Option String) (ci : Bool)
    (m : ResourceMap T) (r : Uri) (k : String)
    (hk : toKey norm ci r = some k) (hne : k ≠ "") :
    (ResourceMap.delete norm ci m r).mapHas k = false := by
  simp only [ResourceMap.delete, hk, if_neg hne]
  refine Bool.eq_false_iff.mpr ?_
  intro hc
  rcases List.any_eq_true.mp hc with ⟨q, hq, hqk⟩
  have hfilt := List.of_mem_filter hq
  simp at hfilt hqk
  exact hfilt hqk

/-- `set` establishes its own key. -/
theorem mapHas_set_self {T : Type} (norm : Uri → Option String) (ci : Bool)
    (m : ResourceMap T) (r : Uri) (v : T) (k : String)
    (hk : toKey norm ci r = some k) (hne : k ≠ "") :
    (ResourceMap.set norm ci m r v).mapHas k = true := by
  by_cases hhas : m.mapHas k = true
  · exact mapHas_set_mono norm ci m r v k hhas
  · have habs : m.mapHas k = false := by simpa using hhas
    have happ := set_append_of_not_has norm ci m r v k hk hne habs
    unfold ResourceMap.mapHas
    rw [happ]
    exact List.any_eq_true.mpr ⟨(k, ⟨r, v⟩), by simp, by simp⟩

/-- The tab set produced by `Set.add` is never empty. -/
theorem setAdd_ne_nil (s : List TabModel) (t : TabModel) : setAdd s t ≠ [] := by
  unfold setAdd
  by_cases h : s.contains t = true
  · rw [if_pos h]
    intro hc
    subst hc
    simp at h
  · rw [if_neg h]
    simp

/-- A failing `get` makes `trackerHas` false. -/
theorem trackerHas_eq_false_of_get_none (norm : Uri → Option String) (ci : Bool)
    (m : TrackerState) (u : Uri) (h : ResourceMap.get norm ci m u = none) :
    trackerHas norm ci m u = false := by
  unfold trackerHas
  rw [h]

/-- Under the tracker invariant, `has` holds exactly for the resolvable URIs
whose normalized key is stored in the map. -/
theorem trackerHas_iff (norm : Uri → Option String) (ci : Bool) (m : TrackerState)
    (hInv : TrackerInv norm ci m) (u : Uri) :
    trackerHas norm ci m u = true ↔
      ∃ k, toKey norm ci u = some k ∧ k ≠ "" ∧ m.mapHas k = true := by
  constructor
  · intro h
    unfold trackerHas at h
    cases hget : ResourceMap.get norm ci m u with
    | none => rw [hget] at h; simp at h
    | some tabs =>
      rcases get_some_elim norm ci m u tabs hget with ⟨k, htk, hne, hhas, _⟩
      exact ⟨k, htk, hne, hhas⟩
  · rintro ⟨k, hk, hne, hhas⟩
    rcases (mapHas_iff_mapGet m k).mp hhas with ⟨en, hen⟩
    have hval : en.value ≠ [] := hInv.2 en (mapGet_mem_entries m k en hen)
    unfold trackerHas
    rw [get_eq_mapGet norm ci m u k hk hne, hen]
    simpa [List.length_pos] using hval

/-- Combined foldl invariant for `TabResourceTracker.add`: the tracker
invariant is preserved, keys only grow, and every reported URI was absent at
the start of the call and — when its key resolves — is present afterwards. -/
theorem trackerAdd_foldl_inv (norm : Uri → Option String) (ci : Bool) (m : TrackerState)
    (t : TabModel) (rs : List Uri) (a : TrackerState) (rep : List Uri)
    (hInvA : TrackerInv norm ci a)
    (hgrow : ∀ k, m.mapHas k = true → a.mapHas k = true)
    (hrep : ∀ u ∈ rep, trackerHas norm ci m u = false ∧
      ∀ k, toKey norm ci u = some k → k ≠ "" → a.mapHas k = true) :
    TrackerInv norm ci (rs.foldl (trackerAddStep norm ci t) (a, rep)).1 ∧
    (∀ k, m.mapHas k = true →
      (rs.foldl (trackerAddStep norm ci t) (a, rep)).1.mapHas k = true) ∧
    (∀ u ∈ (rs.foldl (trackerAddStep norm ci t) (a, rep)).2,
      trackerHas norm ci m u = false ∧
        ∀ k, toKey norm ci u = some k → k ≠ "" →
          (rs.foldl (trackerAddStep norm ci t) (a, rep)).1.mapHas k = true) := by
  induction rs generalizing a rep with
  | nil => exact ⟨hInvA, hgrow, hrep⟩
  | cons uri rs' ih =>
    cases hget : ResourceMap.get norm ci a uri with
    | some tabs =>
      have hstep : trackerAddStep norm ci t (a, rep) uri
          = (ResourceMap.set norm ci a uri (setAdd tabs t), rep) := by
        unfold trackerAddStep
        rw [hget]
      have hInvA' : TrackerInv norm ci (ResourceMap.set norm ci a uri (setAdd tabs t)) :=
        ⟨WF_set norm ci a uri _ hInvA.1,
          set_value_pred (· ≠ []) norm ci a uri _ hInvA.2 (setAdd_ne_nil tabs t)⟩
      have hgrow' : ∀ k, m.mapHas k = true →
          (ResourceMap.set norm ci a uri (setAdd tabs t)).mapHas k = true :=
        fun k hk => mapHas_set_mono norm ci a uri _ k (hgrow k hk)
      have hrep' : ∀ u ∈ rep, trackerHas norm ci m u = false ∧
          ∀ k, toKey norm ci u = some k → k ≠ "" →
            (ResourceMap.set norm ci a uri (setAdd tabs t)).mapHas k = true := by
        intro u hu
        refine ⟨(hrep u hu).1, fun k hk hne => ?_⟩
        exact mapHas_set_mono norm ci a uri _ k ((hrep u hu).2 k hk hne)
      have hres := ih (ResourceMap.set norm ci a uri (setAdd tabs t)) rep hInvA' hgrow' hrep'
      simpa only [List.foldl_cons, hstep] using hres
    | none =>
      have hstep : trackerAddStep norm ci t (a, rep) uri
          = (ResourceMap.set norm ci a uri [t], rep ++ [uri]) := by
        unfold trackerAddStep
        rw [hget]
      have hInvA' : TrackerInv norm ci (ResourceMap.set norm ci a uri [t]) :=
        ⟨WF_set norm ci a uri _ hInvA.1,
          set_value_pred (· ≠ []) norm ci a uri _ hInvA.2 (by simp)⟩
      have hgrow' : ∀ k, m.mapHas k = true →
          (ResourceMap.set norm ci a uri [t]).mapHas k = true :=
        fun k hk => mapHas_set_mono norm ci a uri _ k (hgrow k hk)
      have hurim : trackerHas norm ci m uri = false := by
        cases htk : toKey norm ci uri with
        | none =>
          refine trackerHas_eq_false_of_get_none norm ci m uri ?_
          simp [ResourceMap.get, htk]
        | some k =>
          by_cases hne : k = ""
          · subst hne
            refine trackerHas_eq_false_of_get_none norm ci m uri ?_
            simp [ResourceMap.get, htk]
          · have haf : a.mapHas k = false :=
              mapHas_false_of_get_none norm ci a uri k htk hne hget
            have hmf : m.mapHas k = false := by
              by_contra hc
              have : a.mapHas k = true := hgrow k (by simpa using hc)
              simp [this] at haf
            exact trackerHas_eq_false_of_get_none norm ci m uri
              (get_eq_none_of_not_mapHas norm ci m uri k htk hmf)
      have hrep' : ∀ u ∈ rep ++ [uri], trackerHas norm ci m u = false ∧
          ∀ k, toKey norm ci u = some k → k ≠ "" →
            (ResourceMap.set norm ci a uri [t]).mapHas k = true := by
        intro u hu
        rcases List.mem_append.mp hu with hu1 | hu2
        · refine ⟨(hrep u hu1).1, fun k hk hne => ?_⟩
          exact mapHas_set_mono norm ci a uri _ k ((hrep u hu1).2 k hk hne)
        · rw [List.mem_singleton] at hu2
          subst hu2
          refine ⟨hurim, fun k hk hne => ?_⟩
          exact mapHas_set_self norm ci a u [t] k hk hne
      have hres := ih (ResourceMap.set norm ci a uri [t]) (rep ++ [uri]) hInvA' hgrow' hrep'
      simpa only [List.foldl_cons, hstep] using hres

/-- Combined foldl invariant for `TabResourceTracker.delete`: the tracker
invariant is preserved, keys only shrink, and every reported URI was present
at the start of the call and is absent afterwards. -/
theorem trackerDelete_foldl_inv (norm : Uri → Option String) (ci : Bool)
    (m : TrackerState) (t : TabModel) (rs : List Uri) (a : TrackerState) (rep : List Uri)
    (hInvM : TrackerInv norm ci m)
    (hInvA : TrackerInv norm ci a)
    (hshrink : ∀ k, a.mapHas k = true → m.mapHas k = true)
    (hrep : ∀ u ∈ rep, trackerHas norm ci m u = true ∧
      ∃ k, toKey norm ci u = some k ∧ k ≠ "" ∧ a.mapHas k = false) :
    TrackerInv norm ci (rs.foldl (trackerDeleteStep norm ci t) (a, rep)).1 ∧
    (∀ k, (rs.foldl (trackerDeleteStep norm ci t) (a, rep)).1.mapHas k = true →
      m.mapHas k = true) ∧
    (∀ u ∈ (rs.foldl (trackerDeleteStep norm ci t) (a, rep)).2,
      trackerHas norm ci m u = true ∧
        ∃ k, toKey norm ci u = some k ∧ k ≠ "" ∧
          (rs.foldl (trackerDeleteStep norm ci t) (a, rep)).1.mapHas k = false) := by
  induction rs generalizing a rep with
  | nil => exact ⟨hInvA, hshrink, hrep⟩
  | cons uri rs' ih =>
    cases hget : ResourceMap.get norm ci a uri with
    | none =>
      have hstep : trackerDeleteStep norm ci t (a, rep) uri = (a, rep) := by
        unfold trackerDeleteStep
        rw [hget]
      have hres := ih a rep hInvA hshrink hrep
      simpa only [List.foldl_cons, hstep] using hres
    | some tabs =>
      rcases get_some_elim norm ci a uri tabs hget with ⟨k, htk, hne, hhask, _⟩
      have hurim : trackerHas norm ci m uri = true :=
        (trackerHas_iff norm ci m hInvM uri).mpr ⟨k, htk, hne, hshrink k hhask⟩
      by_cases hlen : (setDelete tabs t).length = 0
      · have hstep : trackerDeleteStep norm ci t (a, rep) uri
            = (ResourceMap.delete norm ci a uri, rep ++ [uri]) := by
          simp only [trackerDeleteStep, hget, if_pos hlen]
        have hInvA' : TrackerInv norm ci (ResourceMap.delete norm ci a uri) :=
          ⟨WF_delete norm ci a uri hInvA.1,
            delete_value_pred (· ≠ []) norm ci a uri hInvA.2⟩
        have hshrink' : ∀ k', (ResourceMap.delete norm ci a uri).mapHas k' = true →
            m.mapHas k' = true :=
          fun k' hk' => hshrink k' (mapHas_delete_imp norm ci a uri k' hk')
        have hrep' : ∀ u ∈ rep ++ [uri], trackerHas norm ci m u = true ∧
            ∃ k', toKey norm ci u = some k' ∧ k' ≠ "" ∧
              (ResourceMap.delete norm ci a uri).mapHas k' = false := by
          intro u hu
          rcases List.mem_append.mp hu with hu1 | hu2
          · obtain ⟨h1, k', hk', hne', habs'⟩ := hrep u hu1
            refine ⟨h1, k', hk', hne', ?_⟩
            by_contra hc
            have : a.mapHas k' = true :=
              mapHas_delete_imp norm ci a uri k' (by simpa using hc)
            simp [this] at habs'
          · rw [List.mem_singleton] at hu2
            subst hu2
            exact ⟨hurim, k, htk, hne, mapHas_delete_self norm ci a u k htk hne⟩
        have hres := ih (ResourceMap.delete norm ci a uri) (rep ++ [uri])
          hInvA' hshrink' hrep'
        simpa only [List.foldl_cons, hstep] using hres
      · have hstep : trackerDeleteStep norm ci t (a, rep) uri
            = (ResourceMap.set norm ci a uri (setDelete tabs t), rep) := by
          simp only [trackerDeleteStep, hget, if_neg hlen]
        have hInvA' : TrackerInv norm ci
            (ResourceMap.set norm ci a uri (setDelete tabs t)) :=
          ⟨WF_set norm ci a uri _ hInvA.1,
            set_value_pred (· ≠ []) norm ci a uri _ hInvA.2
              (by intro hc; exact hlen (by simp [hc]))⟩
        have hshrink' : ∀ k',
            (ResourceMap.set norm ci a uri (setDelete tabs t)).mapHas k' = true →
            m.mapHas k' = true := by
          intro k' hk'
          rcases mapHas_set_imp norm ci a uri _ k' hk' with h1 | h1
          · exact hshrink k' h1
          · rw [htk] at h1
            have : k = k' := Option.some.inj h1
            subst this
            exact hshrink k hhask
        have hrep' : ∀ u ∈ rep, trackerHas norm ci m u = true ∧
            ∃ k', toKey norm ci u = some k' ∧ k' ≠ "" ∧
              (ResourceMap.set norm ci a uri (setDelete tabs t)).mapHas k' = false := by
          intro u hu
          obtain ⟨h1, k', hk', hne', habs'⟩ := hrep u hu
          refine ⟨h1, k', hk', hne', ?_⟩
          by_contra hc
          rcases mapHas_set_imp norm ci a uri _ k' (by simpa using hc) with h2 | h2
          · simp [h2] at habs'
          · rw [htk] at h2
            have : k = k' := Option.some.inj h2
            subst this
            simp [hhask] at habs'
        have hres := ih (ResourceMap.set norm ci a uri (setDelete tabs t)) rep
          hInvA' hshrink' hrep'
        simpa only [List.foldl_cons, hstep] using hres

/-- The empty tracker satisfies the invariant. -/
theorem trackerInv_empty (norm : Uri → Option String) (ci : Bool) :
    TrackerInv norm ci (⟨[]⟩ : TrackerState) := by
  refine ⟨⟨?_, ?_⟩, ?_⟩ <;> simp [ResourceMap.entries]

/-- One tracker step preserves the invariant. -/
theorem trackerStep_inv (norm : Uri → Option String) (ci : Bool) (m : TrackerState)
    (op : TabOp) (h : TrackerInv norm ci m) :
    TrackerInv norm ci (trackerStep norm ci m op) := by
  cases op with
  | add t =>
    exact (trackerAdd_foldl_inv norm ci m t t.resources m [] h (fun k hk => hk)
      (by simp)).1
  | del t =>
    exact (trackerDelete_foldl_inv norm ci m t t.resources m [] h h (fun k hk => hk)
      (by simp)).1

/-- C9 counterexample: with a normalizer that cannot resolve the URI (as
`toTsFilePath` can return `undefined`), `add` still pushes the URI onto
`addedResources` while the guarded `set` stores nothing, so the URI is
reported as newly opened with no transition from absent to present. -/
theorem trackerAdd_reports_without_transition :
    (trackerAdd (fun _ => none) false (⟨[]⟩ : TrackerState) ⟨0, ["untitled:u"]⟩).2
      = ["untitled:u"] ∧
    (trackerAdd (fun _ => none) false (⟨[]⟩ : TrackerState) ⟨0, ["untitled:u"]⟩).1
      = (⟨[]⟩ : TrackerState) ∧
    trackerHas (fun _ => none) false
      (trackerAdd (fun _ => none) false (⟨[]⟩ : TrackerState) ⟨0, ["untitled:u"]⟩).1
      "untitled:u" = false :=
  ⟨by decide, by decide, by decide⟩

/-- C9 (amended): after any sequence of add/delete tab events the tracker
invariant holds — every URI present in the internal map has a non-empty tab
set — and `has(u)` returns true exactly when `u`'s resolved key is stored in
the map; `delete` reports a URI as newly closed only on the transition to an
empty tab set (present before, absent after); `add` reports a URI as newly
opened only when it was absent before, and for URIs whose path the
normalizer resolves the transition to present is guaranteed (for an
unresolvable URI `add` still reports it even though no entry is created). -/
theorem tabTracker_invariant (norm : Uri → Option String) (ci : Bool) :
    (∀ ops, TrackerInv norm ci (trackerRun norm ci ⟨[]⟩ ops)) ∧
    (∀ m, TrackerInv norm ci m → ∀ u,
      (trackerHas norm ci m u = true ↔
        ∃ k, toKey norm ci u = some k ∧ k ≠ "" ∧ m.mapHas k = true)) ∧
    (∀ m t u, TrackerInv norm ci m → u ∈ (trackerAdd norm ci m t).2 →
      trackerHas norm ci m u = false ∧
        ∀ k, toKey norm ci u = some k → k ≠ "" →
          trackerHas norm ci (trackerAdd norm ci m t).1 u = true) ∧
    (∀ m t u, TrackerInv norm ci m → u ∈ (trackerDelete norm ci m t).2 →
      trackerHas norm ci m u = true ∧
        trackerHas norm ci (trackerDelete norm ci m t).1 u = false) := by
  have hrun : ∀ ops (m : TrackerState), TrackerInv norm ci m →
      TrackerInv norm ci (trackerRun norm ci m ops) := by
    intro ops
    induction ops with
    | nil => exact fun m hm => hm
    | cons op ops' ih =>
      intro m hm
      exact ih (trackerStep norm ci m op) (trackerStep_inv norm ci m op hm)
  refine ⟨fun ops => hrun ops ⟨[]⟩ (trackerInv_empty norm ci), ?_, ?_, ?_⟩
  · intro m hm u
    exact trackerHas_iff norm ci m hm u
  · intro m t u hm hu
    obtain ⟨hInvF, _, hrepF⟩ := trackerAdd_foldl_inv norm ci m t t.resources m []
      hm (fun k hk => hk) (by simp)
    obtain ⟨h1, h2⟩ := hrepF u hu
    refine ⟨h1, fun k hk hne => ?_⟩
    exact (trackerHas_iff norm ci _ hInvF u).mpr ⟨k, hk, hne, h2 k hk hne⟩
  · intro m t u hm hu
    obtain ⟨hInvF, _, hrepF⟩ := trackerDelete_foldl_inv norm ci m t t.resources m []
      hm hm (fun k hk => hk) (by simp)
    obtain ⟨h1, k, hk, hne, habs⟩ := hrepF u hu
    refine ⟨h1, ?_⟩
    exact trackerHas_eq_false_of_get_none norm ci _ u
      (get_eq_none_of_not_mapHas norm ci _ u k hk habs)

theorem tabTracker_invariant_witness :
    TrackerInv (fun s => some s) false (⟨[]⟩ : TrackerState) ∧
    "file:///x.ts" ∈ (trackerAdd (fun s => some s) false (⟨[]⟩ : TrackerState)
      ⟨0, ["file:///x.ts"]⟩).2 ∧
    (trackerHas (fun s => some s) false (⟨[]⟩ : TrackerState) "file:///x.ts" = false ∧
      trackerHas (fun s => some s) false
        (trackerAdd (fun s => some s) false (⟨[]⟩ : TrackerState)
          ⟨0, ["file:///x.ts"]⟩).1 "file:///x.ts" = true) ∧
    TrackerInv (fun s => some s) false
      (trackerRun (fun s => some s) false ⟨[]⟩
        [TabOp.add ⟨0, ["file:///x.ts"]⟩, TabOp.del ⟨0, ["file:///x.ts"]⟩]) :=
  ⟨by decide, by decide,
    (by
      have h := (tabTracker_invariant (fun s => some s) false).2.2.1
        ⟨[]⟩ ⟨0, ["file:///x.ts"]⟩ "file:///x.ts" (by decide) (by decide)
      exact ⟨h.1, h.2 "file:///x.ts" (by decide) (by decide)⟩),
    (tabTracker_invariant (fun s => some s) false).1
      [TabOp.add ⟨0, ["file:///x.ts"]⟩, TabOp.del ⟨0, ["file:///x.ts"]⟩]⟩

end TSLS
